import Mathlib

/-!
Verification development for the interview-agent repository: a shallow
embedding of the streaming tool-call orchestrator (`src/pages/api/rag.ts`
and the recursive variant `handleStreamWithToolCalls` in
`src/unnamed/part_002`), of the hybrid search combiner
(`InterviewSearchSystem.hybridSearch` in `src/unnamed/part_006`), of the
tool executor `searchInterviews`, and of the client-side event reducer
(`src/components/rag-chat.tsx` and the variant in `src/unnamed/part_000`).

Modelling conventions:
* JavaScript numbers that carry scores and blend weights are modelled as
  exact rationals (`ℚ`); the code only adds, multiplies and compares them.
* `JSON.parse` is an external platform builtin; the orchestrator is
  parameterised over an abstract parse function `String → Except String J`
  for an abstract type `J` of parsed JSON values, together with the
  destructuring-with-defaults step `J → SearchParams` performed by
  `searchInterviews`.  `JSON.stringify`/`JSON.parse` round-trips on the tool
  result payload are modelled as the identity (payload values are carried
  directly).
* The hosted search backend and the hosted model are external
  collaborators: the backend is a function returning rows or an error (a
  thrown exception is the `Except.error` case), the model is an oracle
  mapping a message history to the chunk stream of its reply.
* JavaScript objects used as string-keyed maps are modelled as
  insertion-ordered association lists (`List (String × α)`): assigning to
  an existing key updates it in place, a new key is appended; this matches
  JS object semantics including `Object.values` enumeration order.
-/

namespace IvAgent

/-- JS `a || b` on possibly-undefined object values: keep `a` when present. -/
def jsOr {α : Type} (a b : Option α) : Option α :=
  match a with
  | some x => some x
  | none => b

/-- JS truthiness of a possibly-undefined string (`undefined` and `""` are falsy). -/
def jsTruthyOptStr (s : Option String) : Bool :=
  match s with
  | some x => !x.isEmpty
  | none => false

/-- Lookup in a JS object modelled as an insertion-ordered association list
(`obj[k]`). -/
def objGet {α : Type} (m : List (String × α)) (k : String) : Option α :=
  match m with
  | [] => none
  | (k₁, v) :: rest => if k₁ = k then some v else objGet rest k

/-- Assignment `obj[k] = v` on a JS object modelled as an insertion-ordered
association list: an existing key is updated in place, a new key is
appended. -/
def objSet {α : Type} (m : List (String × α)) (k : String) (v : α) : List (String × α) :=
  match m with
  | [] => [(k, v)]
  | (k₁, v₁) :: rest => if k₁ = k then (k, v) :: rest else (k₁, v₁) :: objSet rest k v

theorem objGet_objSet_self {α : Type} (m : List (String × α)) (k : String) (v : α) :
    objGet (objSet m k v) k = some v := by
  induction m with
  | nil => simp [objSet, objGet]
  | cons p rest ih =>
    obtain ⟨k₁, v₁⟩ := p
    by_cases h : k₁ = k
    · simp [objSet, objGet, h]
    · simp [objSet, objGet, h, ih]

theorem objGet_objSet_ne {α : Type} (m : List (String × α)) (k k₂ : String) (v : α)
    (h : k₂ ≠ k) : objGet (objSet m k v) k₂ = objGet m k₂ := by
  have h' : ¬ k = k₂ := fun hh => h hh.symm
  induction m with
  | nil => simp [objSet, objGet, h']
  | cons p rest ih =>
    obtain ⟨k₁, v₁⟩ := p
    by_cases h₁ : k₁ = k
    · subst h₁
      simp [objSet, objGet, h']
    · by_cases h₂ : k₁ = k₂
      · simp [objSet, objGet, h₁, h₂, h]
      · simp [objSet, objGet, h₁, h₂, ih]

theorem mem_objSet {α : Type} {k : String} {v : α} {p : String × α} :
    ∀ {m : List (String × α)}, p ∈ objSet m k v → p = (k, v) ∨ p ∈ m := by
  intro m
  induction m with
  | nil => intro h; simpa [objSet] using h
  | cons q rest ih =>
    obtain ⟨k₁, v₁⟩ := q
    intro h
    by_cases h₁ : k₁ = k
    · simp only [objSet, if_pos h₁, List.mem_cons] at h
      rcases h with h | h
      · exact Or.inl h
      · exact Or.inr (List.mem_cons_of_mem _ h)
    · simp only [objSet, if_neg h₁, List.mem_cons] at h
      rcases h with h | h
      · exact Or.inr (by simp [h])
      · rcases ih h with h' | h'
        · exact Or.inl h'
        · exact Or.inr (List.mem_cons_of_mem _ h')

theorem objGet_mem {α : Type} {k : String} {v : α} :
    ∀ {m : List (String × α)}, objGet m k = some v → (k, v) ∈ m := by
  intro m
  induction m with
  | nil => intro h; simp [objGet] at h
  | cons q rest ih =>
    obtain ⟨k₁, v₁⟩ := q
    intro h
    by_cases h₁ : k₁ = k
    · subst h₁
      simp [objGet] at h
      simp [h]
    · simp [objGet, h₁] at h
      exact List.mem_cons_of_mem _ (ih h)

theorem key_mem_objSet {α : Type} (m : List (String × α)) (k : String) (v : α) :
    k ∈ (objSet m k v).map Prod.fst := by
  induction m with
  | nil => simp [objSet]
  | cons q rest ih =>
    obtain ⟨k₁, v₁⟩ := q
    by_cases h₁ : k₁ = k
    · simp [objSet, h₁]
    · simp only [objSet, if_neg h₁, List.map_cons, List.mem_cons]
      exact Or.inr ih

theorem key_mem_objSet_of_mem {α : Type} {k₂ : String} (k : String) (v : α) :
    ∀ {m : List (String × α)}, k₂ ∈ m.map Prod.fst →
      k₂ ∈ (objSet m k v).map Prod.fst := by
  intro m
  induction m with
  | nil => intro h; simp at h
  | cons q rest ih =>
    obtain ⟨k₁, v₁⟩ := q
    intro h
    by_cases h₁ : k₁ = k
    · have hset : objSet ((k₁, v₁) :: rest) k v = (k, v) :: rest := by
        simp [objSet, h₁]
      rw [hset]
      simp only [List.map_cons, List.mem_cons] at h ⊢
      rcases h with h | h
      · exact Or.inl (h.trans h₁)
      · exact Or.inr h
    · simp only [List.map_cons, List.mem_cons] at h
      rcases h with h | h
      · simp [objSet, h₁, h]
      · simp only [objSet, if_neg h₁, List.map_cons, List.mem_cons]
        exact Or.inr (ih h)

/-! ## Search system (`src/unnamed/part_006`, `InterviewSearchSystem`)

A turbopuffer result row: `id` (stringified, the merge key `docId`),
`$dist` (possibly absent), and the included attributes. -/

structure PufRow where
  id : String
  dist : Option ℚ
  interview_id : String
  participant_id : String
  interview_title : String
  paragraph_title : String
  paragraph_text : String
deriving DecidableEq

/-- The `VectorSearchResult` of the search library: combined score plus the two
sub-scores (hybrid search always sets both). -/
structure VectorSearchResult where
  id : String
  score : ℚ
  vector_score : ℚ
  keyword_score : ℚ
  interview_id : String
  participant_id : String
  interview_title : String
  paragraph_title : String
  paragraph_text : String
deriving DecidableEq

/-- One sub-query of the `multiQuery` request built by `hybridSearch`:
its label, whether it ranks by vector or by BM25 text, and its `top_k`. -/
structure SubQuery where
  label : String
  isVector : Bool
  top_k : ℤ
deriving DecidableEq

/-- The two sub-queries `hybridSearch` issues: the vector query with
`top_k = Math.ceil(topK * alpha)` and the keyword query with
`top_k = Math.ceil(topK * (1 - alpha))`. -/
def hybridMultiQuery (topK : ℕ) (alpha : ℚ) : List SubQuery :=
  [⟨"vector_search", true, ⌈(topK : ℚ) * alpha⌉⟩,
   ⟨"keyword_search", false, ⌈(topK : ℚ) * (1 - alpha)⌉⟩]

/-- The `multiQuery` response: `result.results[0]` (vector) and
`result.results[1]` (keyword), each possibly absent. -/
structure MultiResp where
  vecRows : Option (List PufRow)
  kwRows : Option (List PufRow)
deriving DecidableEq

/-- Entry written for a vector row: `vector_score = 1 - ($dist || 0)`,
`keyword_score = 0.0`, `score = alpha * vectorScore`. -/
def vecEntry (alpha : ℚ) (row : PufRow) : VectorSearchResult :=
  let v := 1 - row.dist.getD 0
  ⟨row.id, alpha * v, v, 0, row.interview_id, row.participant_id,
   row.interview_title, row.paragraph_title, row.paragraph_text⟩

/-- Entry written for a keyword row whose id was not seen by the vector
query: `vector_score = 0.0`, `keyword_score = $dist || 0`,
`score = (1 - alpha) * keywordScore`. -/
def kwEntry (alpha : ℚ) (row : PufRow) : VectorSearchResult :=
  let k := row.dist.getD 0
  ⟨row.id, (1 - alpha) * k, 0, k, row.interview_id, row.participant_id,
   row.interview_title, row.paragraph_title, row.paragraph_text⟩

/-- Update applied when a keyword row hits an id already present:
`keyword_score` is set and `score` recomputed as
`alpha * vector_score + (1 - alpha) * keywordScore`. -/
def kwUpdate (alpha : ℚ) (r : VectorSearchResult) (row : PufRow) : VectorSearchResult :=
  let k := row.dist.getD 0
  { r with keyword_score := k, score := alpha * r.vector_score + (1 - alpha) * k }

/-- First loop of `hybridSearch`: fold the vector rows into `combinedResults`. -/
def processVector (alpha : ℚ) (m : List (String × VectorSearchResult)) :
    List PufRow → List (String × VectorSearchResult)
  | [] => m
  | row :: rest => processVector alpha (objSet m row.id (vecEntry alpha row)) rest

/-- Second loop of `hybridSearch`: fold the keyword rows into `combinedResults`. -/
def processKeyword (alpha : ℚ) (m : List (String × VectorSearchResult)) :
    List PufRow → List (String × VectorSearchResult)
  | [] => m
  | row :: rest =>
    match objGet m row.id with
    | some r => processKeyword alpha (objSet m row.id (kwUpdate alpha r row)) rest
    | none => processKeyword alpha (objSet m row.id (kwEntry alpha row)) rest

/-- The `combinedResults` object after both loops of `hybridSearch`. -/
def hybridMerged (alpha : ℚ) (vecRows kwRows : List PufRow) :
    List (String × VectorSearchResult) :=
  processKeyword alpha (processVector alpha [] vecRows) kwRows

/-- Stable insertion for descending sort by `score` (models the stable
JS `sort((a, b) => b.score - a.score)`). -/
def insertDesc (x : VectorSearchResult) : List VectorSearchResult → List VectorSearchResult
  | [] => [x]
  | y :: ys => if y.score ≤ x.score then x :: y :: ys else y :: insertDesc x ys

/-- Stable descending sort by `score`. -/
def sortByScoreDesc : List VectorSearchResult → List VectorSearchResult
  | [] => []
  | x :: xs => insertDesc x (sortByScoreDesc xs)

/-- Combination step of `hybridSearch` after the sub-queries return: merge, sort descending by
combined score, truncate with `slice(0, topK)`. -/
def hybridCombine (alpha : ℚ) (topK : ℕ) (vecRows kwRows : List PufRow) :
    List VectorSearchResult :=
  (sortByScoreDesc ((hybridMerged alpha vecRows kwRows).map Prod.snd)).take topK

/-- The whole of `hybridSearch`: build the multi-query (with the ceil'd
`top_k` values), send it to the turbopuffer service, and combine the two
row lists (an absent sub-result list leaves its loop unentered). -/
def hybridSearch (topK : ℕ) (alpha : ℚ) (service : List SubQuery → MultiResp) :
    List VectorSearchResult :=
  let resp := service (hybridMultiQuery topK alpha)
  hybridCombine alpha topK (resp.vecRows.getD []) (resp.kwRows.getD [])

/-- Sorted in descending `score` order. -/
def SortedDesc (l : List VectorSearchResult) : Prop :=
  l.Pairwise fun a b => b.score ≤ a.score

/-- Every stored entry's score is the blend of its two sub-scores. -/
def ScoreInv (alpha : ℚ) (m : List (String × VectorSearchResult)) : Prop :=
  ∀ p ∈ m, p.2.score = alpha * p.2.vector_score + (1 - alpha) * p.2.keyword_score

theorem scoreInv_processVector (alpha : ℚ) :
    ∀ (rows : List PufRow) (m : List (String × VectorSearchResult)),
      ScoreInv alpha m → ScoreInv alpha (processVector alpha m rows) := by
  intro rows
  induction rows with
  | nil => intro m h; simpa [processVector] using h
  | cons row rest ih =>
    intro m h
    simp only [processVector]
    apply ih
    intro p hp
    rcases mem_objSet hp with h' | h'
    · subst h'
      simp [vecEntry]
    · exact h p h'

theorem scoreInv_processKeyword (alpha : ℚ) :
    ∀ (rows : List PufRow) (m : List (String × VectorSearchResult)),
      ScoreInv alpha m → ScoreInv alpha (processKeyword alpha m rows) := by
  intro rows
  induction rows with
  | nil => intro m h; simpa [processKeyword] using h
  | cons row rest ih =>
    intro m h
    simp only [processKeyword]
    cases hg : objGet m row.id with
    | some r =>
      apply ih
      intro p hp
      rcases mem_objSet hp with h' | h'
      · subst h'
        simp [kwUpdate]
      · exact h p h'
    | none =>
      apply ih
      intro p hp
      rcases mem_objSet hp with h' | h'
      · subst h'
        simp [kwEntry]
      · exact h p h'

theorem scoreInv_hybridMerged (alpha : ℚ) (vecRows kwRows : List PufRow) :
    ScoreInv alpha (hybridMerged alpha vecRows kwRows) := by
  apply scoreInv_processKeyword
  apply scoreInv_processVector
  intro p hp
  simp at hp

/-- Every stored entry's `id` comes from one of the row lists. -/
def IdInv (ids : List String) (m : List (String × VectorSearchResult)) : Prop :=
  ∀ p ∈ m, p.2.id ∈ ids

theorem idInv_processVector (alpha : ℚ) (ids : List String) :
    ∀ (rows : List PufRow) (m : List (String × VectorSearchResult)),
      IdInv ids m → (∀ row ∈ rows, row.id ∈ ids) →
      IdInv ids (processVector alpha m rows) := by
  intro rows
  induction rows with
  | nil => intro m h _; simpa [processVector] using h
  | cons row rest ih =>
    intro m h hrows
    simp only [processVector]
    apply ih
    · intro p hp
      rcases mem_objSet hp with h' | h'
      · subst h'
        exact hrows row (by simp)
      · exact h p h'
    · intro r hr
      exact hrows r (by simp [hr])

theorem idInv_processKeyword (alpha : ℚ) (ids : List String) :
    ∀ (rows : List PufRow) (m : List (String × VectorSearchResult)),
      IdInv ids m → (∀ row ∈ rows, row.id ∈ ids) →
      IdInv ids (processKeyword alpha m rows) := by
  intro rows
  induction rows with
  | nil => intro m h _; simpa [processKeyword] using h
  | cons row rest ih =>
    intro m h hrows
    simp only [processKeyword]
    cases hg : objGet m row.id with
    | some r =>
      apply ih
      · intro p hp
        rcases mem_objSet hp with h' | h'
        · subst h'
          exact h (row.id, r) (objGet_mem hg)
        · exact h p h'
      · intro r₂ hr
        exact hrows r₂ (by simp [hr])
    | none =>
      apply ih
      · intro p hp
        rcases mem_objSet hp with h' | h'
        · subst h'
          exact hrows row (by simp)
        · exact h p h'
      · intro r₂ hr
        exact hrows r₂ (by simp [hr])

theorem mem_insertDesc {a x : VectorSearchResult} :
    ∀ {l : List VectorSearchResult}, a ∈ insertDesc x l ↔ a = x ∨ a ∈ l := by
  intro l
  induction l with
  | nil => simp [insertDesc]
  | cons y ys ih =>
    by_cases h : y.score ≤ x.score
    · simp [insertDesc, h]
    · simp only [insertDesc, if_neg h, List.mem_cons, ih]
      tauto

theorem mem_sortByScoreDesc {a : VectorSearchResult} :
    ∀ {l : List VectorSearchResult}, a ∈ sortByScoreDesc l → a ∈ l := by
  intro l
  induction l with
  | nil => simp [sortByScoreDesc]
  | cons x xs ih =>
    intro h
    simp only [sortByScoreDesc] at h
    rcases mem_insertDesc.mp h with h' | h'
    · simp [h']
    · exact List.mem_cons_of_mem _ (ih h')

theorem sortedDesc_insertDesc {x : VectorSearchResult} :
    ∀ {l : List VectorSearchResult}, SortedDesc l → SortedDesc (insertDesc x l) := by
  intro l
  induction l with
  | nil => intro _; simp [insertDesc, SortedDesc]
  | cons y ys ih =>
    intro h
    rcases (List.pairwise_cons.mp h) with ⟨hy, hys⟩
    by_cases hle : y.score ≤ x.score
    · simp only [insertDesc, if_pos hle]
      apply List.pairwise_cons.mpr
      constructor
      · intro b hb
        rcases List.mem_cons.mp hb with h' | h'
        · subst h'; exact hle
        · exact le_trans (hy b h') hle
      · exact h
    · simp only [insertDesc, if_neg hle]
      apply List.pairwise_cons.mpr
      constructor
      · intro b hb
        rcases mem_insertDesc.mp hb with h' | h'
        · subst h'
          exact le_of_lt (lt_of_not_le hle)
        · exact hy b h'
      · exact ih hys

theorem sortedDesc_sortByScoreDesc :
    ∀ (l : List VectorSearchResult), SortedDesc (sortByScoreDesc l) := by
  intro l
  induction l with
  | nil => simp [sortByScoreDesc, SortedDesc]
  | cons x xs ih => exact sortedDesc_insertDesc ih

theorem keys_processVector_mono (alpha : ℚ) {k₂ : String} :
    ∀ (rows : List PufRow) (m : List (String × VectorSearchResult)),
      k₂ ∈ m.map Prod.fst → k₂ ∈ (processVector alpha m rows).map Prod.fst := by
  intro rows
  induction rows with
  | nil => intro m h; simpa [processVector] using h
  | cons row rest ih =>
    intro m h
    simp only [processVector]
    exact ih _ (key_mem_objSet_of_mem _ _ h)

theorem keys_processKeyword_mono (alpha : ℚ) {k₂ : String} :
    ∀ (rows : List PufRow) (m : List (String × VectorSearchResult)),
      k₂ ∈ m.map Prod.fst → k₂ ∈ (processKeyword alpha m rows).map Prod.fst := by
  intro rows
  induction rows with
  | nil => intro m h; simpa [processKeyword] using h
  | cons row rest ih =>
    intro m h
    simp only [processKeyword]
    cases hg : objGet m row.id with
    | some r => exact ih _ (key_mem_objSet_of_mem _ _ h)
    | none => exact ih _ (key_mem_objSet_of_mem _ _ h)

theorem row_key_processVector (alpha : ℚ) {row : PufRow} :
    ∀ (rows : List PufRow) (m : List (String × VectorSearchResult)),
      row ∈ rows → row.id ∈ (processVector alpha m rows).map Prod.fst := by
  intro rows
  induction rows with
  | nil => intro m h; simp at h
  | cons r₁ rest ih =>
    intro m h
    rcases List.mem_cons.mp h with h' | h'
    · subst h'
      simp only [processVector]
      exact keys_processVector_mono alpha rest _ (key_mem_objSet _ _ _)
    · simp only [processVector]
      exact ih _ h'

theorem row_key_processKeyword (alpha : ℚ) {row : PufRow} :
    ∀ (rows : List PufRow) (m : List (String × VectorSearchResult)),
      row ∈ rows → row.id ∈ (processKeyword alpha m rows).map Prod.fst := by
  intro rows
  induction rows with
  | nil => intro m h; simp at h
  | cons r₁ rest ih =>
    intro m h
    rcases List.mem_cons.mp h with h' | h'
    · subst h'
      simp only [processKeyword]
      cases hg : objGet m row.id with
      | some r => exact keys_processKeyword_mono alpha rest _ (key_mem_objSet _ _ _)
      | none => exact keys_processKeyword_mono alpha rest _ (key_mem_objSet _ _ _)
    · simp only [processKeyword]
      cases hg : objGet m r₁.id with
      | some r => exact ih _ h'
      | none => exact ih _ h'

/-- C3: for every hybrid search with parameters `topK` and `alpha`, the
adapter issues a vector sub-query with `top_k = ceil(topK * alpha)` and a
keyword sub-query with `top_k = ceil(topK * (1 - alpha))`, unions the two
result row sets by document id, assigns every merged result
`score = alpha * vector_score + (1 - alpha) * keyword_score` with a missing
side treated as `0`, and returns the union sorted descending by `score` and
truncated to at most `topK` entries. -/
theorem hybrid_search_spec (topK : ℕ) (alpha : ℚ) (service : List SubQuery → MultiResp) :
    ((hybridMultiQuery topK alpha).map SubQuery.top_k =
      [⌈(topK : ℚ) * alpha⌉, ⌈(topK : ℚ) * (1 - alpha)⌉]) ∧
    (∀ r ∈ hybridSearch topK alpha service,
      r.score = alpha * r.vector_score + (1 - alpha) * r.keyword_score) ∧
    SortedDesc (hybridSearch topK alpha service) ∧
    (hybridSearch topK alpha service).length ≤ topK ∧
    (∀ r ∈ hybridSearch topK alpha service,
      r.id ∈ ((service (hybridMultiQuery topK alpha)).vecRows.getD []).map PufRow.id ∨
      r.id ∈ ((service (hybridMultiQuery topK alpha)).kwRows.getD []).map PufRow.id) ∧
    (∀ row : PufRow,
      row ∈ (service (hybridMultiQuery topK alpha)).vecRows.getD [] ∨
      row ∈ (service (hybridMultiQuery topK alpha)).kwRows.getD [] →
      row.id ∈ (hybridMerged alpha ((service (hybridMultiQuery topK alpha)).vecRows.getD [])
        ((service (hybridMultiQuery topK alpha)).kwRows.getD [])).map Prod.fst) := by
  set vec := (service (hybridMultiQuery topK alpha)).vecRows.getD [] with hvec
  set kw := (service (hybridMultiQuery topK alpha)).kwRows.getD [] with hkw
  have hout : hybridSearch topK alpha service =
      (sortByScoreDesc ((hybridMerged alpha vec kw).map Prod.snd)).take topK := by
    simp [hybridSearch, hybridCombine, hvec, hkw]
  have hmem : ∀ r ∈ hybridSearch topK alpha service,
      ∃ p ∈ hybridMerged alpha vec kw, p.2 = r := by
    intro r hr
    rw [hout] at hr
    have hr₂ := mem_sortByScoreDesc (List.mem_of_mem_take hr)
    rcases List.mem_map.mp hr₂ with ⟨p, hp, hpr⟩
    exact ⟨p, hp, hpr⟩
  refine ⟨by simp [hybridMultiQuery], ?_, ?_, ?_, ?_, ?_⟩
  · intro r hr
    rcases hmem r hr with ⟨p, hp, hpr⟩
    subst hpr
    exact scoreInv_hybridMerged alpha vec kw p hp
  · rw [hout]
    exact List.Pairwise.sublist (List.take_sublist _ _) (sortedDesc_sortByScoreDesc _)
  · rw [hout]
    exact List.length_take_le _ _
  · intro r hr
    rcases hmem r hr with ⟨p, hp, hpr⟩
    subst hpr
    have hids : IdInv (vec.map PufRow.id ++ kw.map PufRow.id) (hybridMerged alpha vec kw) := by
      apply idInv_processKeyword
      · apply idInv_processVector
        · intro q hq
          simp at hq
        · intro q hq
          exact List.mem_append_left _ (List.mem_map_of_mem _ hq)
      · intro q hq
        exact List.mem_append_right _ (List.mem_map_of_mem _ hq)
    have := hids p hp
    exact List.mem_append.mp this
  · intro row hrow
    rcases hrow with h | h
    · exact keys_processKeyword_mono alpha kw _ (row_key_processVector alpha vec [] h)
    · exact row_key_processKeyword alpha kw _ h

/-- Concrete turbopuffer response used to witness `hybrid_search_spec`:
three vector hits and two keyword hits with one overlapping id. -/
def svcW : List SubQuery → MultiResp := fun _ =>
  ⟨some [⟨"a", some (1/4), "i1", "p1", "t", "pt", "tx"⟩,
         ⟨"b", some (1/2), "i1", "p2", "t", "pt", "tx"⟩],
   some [⟨"a", some 2, "i1", "p1", "t", "pt", "tx"⟩,
         ⟨"c", some 3, "i2", "p3", "t", "pt", "tx"⟩]⟩

/-- The merged entry for the overlapping id in the witness scenario. -/
def rW : VectorSearchResult := ⟨"a", 11/8, 3/4, 2, "i1", "p1", "t", "pt", "tx"⟩

theorem hybrid_search_spec_witness :
    rW ∈ hybridSearch 5 (1/2) svcW ∧
    rW.score = (1/2 : ℚ) * rW.vector_score + (1 - 1/2) * rW.keyword_score ∧
    (hybridSearch 5 (1/2) svcW).length ≤ 5 := by
  have hm : rW ∈ hybridSearch 5 (1/2) svcW := by
    norm_num [hybridSearch, hybridCombine, hybridMerged, processKeyword, processVector,
      vecEntry, kwEntry, kwUpdate, objSet, objGet, sortByScoreDesc, insertDesc, svcW, rW]
  exact ⟨hm, (hybrid_search_spec 5 (1/2) svcW).2.1 rW hm,
    (hybrid_search_spec 5 (1/2) svcW).2.2.2.1⟩

/-! ## Tool executor (`searchInterviews` in `src/pages/api/rag.ts`)

`SearchParams` is the result of the destructuring with defaults
`const { query, searchType = 'hybrid', filters = {}, topK = 10, alpha = 0.5 } = params`
performed on the parsed tool-argument object; `query` may be `undefined`
(absent from the JSON).  `topK` is kept as a natural number (the tool
schema and every call site use integer counts). -/

structure SearchFilters where
  interview_id : Option String
  participant_id : Option String
deriving DecidableEq

structure SearchParams where
  query : Option String
  searchType : String
  filters : SearchFilters
  topK : ℕ
  alpha : ℚ
deriving DecidableEq

/-- One element of the `formattedResults` array built by `searchInterviews`:
`rank = index + 1` plus fields copied from the search result. -/
structure FormattedResult where
  rank : ℕ
  score : ℚ
  interview_id : String
  participant_id : String
  interview_title : String
  paragraph_title : String
  paragraph_text : String
deriving DecidableEq

/-- The JSON payload `searchInterviews` returns (as a string in the source;
`JSON.stringify`/`JSON.parse` round-trips are modelled as the identity):
either `{query, searchType, resultsCount, results}` or `{error, details}`. -/
inductive ToolPayload where
  | ok (query : Option String) (searchType : String) (resultsCount : ℕ)
      (results : List FormattedResult)
  | err (error : String) (details : String)
deriving DecidableEq

/-- The `error` field of the payload (`undefined` on the success shape). -/
def payloadError : ToolPayload → Option String
  | ToolPayload.ok _ _ _ _ => none
  | ToolPayload.err e _ => some e

/-- The `query` field of the payload (`undefined` on the error shape). -/
def payloadQuery : ToolPayload → Option String
  | ToolPayload.ok q _ _ _ => q
  | ToolPayload.err _ _ => none

/-- The `searchType` field of the payload (`undefined` on the error shape). -/
def payloadSearchType : ToolPayload → Option String
  | ToolPayload.ok _ s _ _ => some s
  | ToolPayload.err _ _ => none

/-- The `resultsCount` field of the payload (`undefined` on the error shape). -/
def payloadResultsCount : ToolPayload → Option ℕ
  | ToolPayload.ok _ _ n _ => some n
  | ToolPayload.err _ _ => none

/-- The `results` field of the payload (`undefined` on the error shape,
read back as an empty list). -/
def payloadResults : ToolPayload → List FormattedResult
  | ToolPayload.ok _ _ _ rs => rs
  | ToolPayload.err _ _ => []

/-- The `summary` object the orchestrator derives from a parsed tool result:
`{query, searchType, resultsCount, hasError: !!parsedResult.error}`. -/
structure ToolSummary where
  query : Option String
  searchType : Option String
  resultsCount : Option ℕ
  hasError : Bool
deriving DecidableEq

def mkSummary (p : ToolPayload) : ToolSummary :=
  ⟨payloadQuery p, payloadSearchType p, payloadResultsCount p,
   jsTruthyOptStr (payloadError p)⟩

/-- Formatting step `results.map((result, index) => ...)` producing `rank: index + 1`, written with
an explicit running index. -/
def formatResultsAux (i : ℕ) : List VectorSearchResult → List FormattedResult
  | [] => []
  | r :: rs =>
    ⟨i + 1, r.score, r.interview_id, r.participant_id, r.interview_title,
     r.paragraph_title, r.paragraph_text⟩ :: formatResultsAux (i + 1) rs

def formatResults (rows : List VectorSearchResult) : List FormattedResult :=
  formatResultsAux 0 rows

/-! ## Upstream model stream and outward event stream -/

/-- One chunk of the upstream model's raw stream, as consumed by the
orchestrator's `for await` loop. -/
inductive Chunk where
  | messageStart
  | blockStartText
  | blockStartToolUse (id : String) (name : String)
  | textDelta (s : String)
  | inputJsonDelta (pjson : String)
  | blockStop
  | messageStop
deriving DecidableEq

/-- An outward stream event written with `writeStreamEvent`, parameterised by
the abstract type `J` of parsed JSON values.  `toolCall` carries the
`{status, id, name, input?}` data of a `tool_call` event; `toolResult` the
`{id, name, result, summary}` data of a `tool_result` event; `errorEv` the
`{message, toolId?}` data of an `error` event (the field is named `id`
instead of `toolId` in the `part_002` variant). -/
inductive ToolStatus where
  | start
  | input_update
  | executing
  | completed
  | error
deriving DecidableEq

inductive Event (J : Type) where
  | text (s : String)
  | toolCall (status : ToolStatus) (id : Option String) (name : Option String)
      (input : Option J)
  | toolResult (id : Option String) (name : Option String) (result : ToolPayload)
      (summary : ToolSummary)
  | errorEv (message : String) (toolId : Option String)
deriving DecidableEq

/-- A message of the working conversation history.  `toolUseMsg` stands for
an assistant message whose content is a single `tool_use` block, and
`toolResultMsg` for a user message whose content is a single `tool_result`
block carrying the serialized payload. -/
inductive HistMsg (J : Type) where
  | userMsg (content : String)
  | assistantMsg (content : String)
  | toolUseMsg (id : String) (name : String) (input : J)
  | toolResultMsg (tool_use_id : String) (content : ToolPayload)
deriving DecidableEq

/-- Observable output of a handler run: the events written to the response
stream, the search-backend invocations, and the message histories sent to
the model for follow-up completions. -/
structure StepOut (J : Type) where
  events : List (Event J)
  calls : List SearchParams
  followUps : List (List (HistMsg J))
deriving DecidableEq

def StepOut.nil {J : Type} : StepOut J := ⟨[], [], []⟩

def StepOut.app {J : Type} (a b : StepOut J) : StepOut J :=
  ⟨a.events ++ b.events, a.calls ++ b.calls, a.followUps ++ b.followUps⟩

/-- The orchestrator's per-turn mutable tool state
(`toolUseId`, `toolName`, `toolInput`).  The write-only `currentToolInput`
variable of `rag.ts` is omitted: it is never read. -/
structure OrcState where
  toolUseId : Option String
  toolName : Option String
  toolInput : String
deriving DecidableEq

def OrcState.init : OrcState := ⟨none, none, ""⟩

/-- The external collaborators the orchestrator is parameterised over:
`parse` models `JSON.parse` (failure carries the engine's error message),
`toParams` the destructuring-with-defaults of the parsed arguments,
`backend` the `InterviewSearchSystem` search call selected by
`searchType` (a thrown backend error is the `Except.error` case), and
`followUpModel` the model's reply stream to a follow-up
`anthropic.messages.create` call. -/
structure Env (J : Type) where
  parse : String → Except String J
  toParams : J → SearchParams
  backend : SearchParams → Except String (List VectorSearchResult)
  followUpModel : List (HistMsg J) → List Chunk

/-- The executor `searchInterviews`: run the selected search and format the results; any
backend error is caught and turned into an `{error, details}` payload. -/
def searchInterviews {J : Type} (env : Env J) (p : SearchParams) : ToolPayload :=
  match env.backend p with
  | Except.ok results =>
    let formatted := formatResults results
    ToolPayload.ok p.query p.searchType formatted.length formatted
  | Except.error e => ToolPayload.err ("Failed to search interviews") e

/-- The text events the `rag.ts` handler forwards from a follow-up stream:
only `text_delta` chunks, everything else is ignored
(`rag.ts` lines 283-291). -/
def followUpTextEvents {J : Type} (cs : List Chunk) : List (Event J) :=
  cs.filterMap fun c =>
    match c with
    | Chunk.textDelta s => some (Event.text s)
    | _ => none

/-- Handling of `content_block_stop` in the `rag.ts` handler (lines 213-310):
if a tool block for the registered tool `search_interviews` is open, parse
the accumulated input; on success emit `executing`, run the tool, emit
`tool_result`, send the extended history to the model and forward the text
of its reply; on parse failure emit an `error` event keyed to the call id.
In both cases the tool state is reset.  For any other (or no) open tool the
chunk does nothing at all. -/
def onBlockStop {J : Type} (env : Env J) (messages : List (HistMsg J)) (st : OrcState) :
    OrcState × StepOut J :=
  match st.toolUseId, st.toolName with
  | some id, some name =>
    if name = "search_interviews" then
      match env.parse st.toolInput with
      | Except.ok j =>
        let p := env.toParams j
        let payload := searchInterviews env p
        let fuMsgs := messages ++
          [HistMsg.toolUseMsg id name j, HistMsg.toolResultMsg id payload]
        let fuEvents : List (Event J) := followUpTextEvents (env.followUpModel fuMsgs)
        (OrcState.init,
         ⟨[Event.toolCall ToolStatus.executing (some id) (some name) (some j),
           Event.toolResult (some id) (some name) payload (mkSummary payload)] ++ fuEvents,
          [p], [fuMsgs]⟩)
      | Except.error e =>
        (OrcState.init,
         ⟨[Event.errorEv (("Search execution failed: ") ++ e) (some id)], [], []⟩)
    else (st, StepOut.nil)
  | _, _ => (st, StepOut.nil)

/-- One iteration of the `rag.ts` main `for await` loop (lines 166-315). -/
def ragStep {J : Type} (env : Env J) (messages : List (HistMsg J)) (st : OrcState) :
    Chunk → OrcState × StepOut J
  | Chunk.messageStart => (st, StepOut.nil)
  | Chunk.blockStartText => (st, StepOut.nil)
  | Chunk.blockStartToolUse id name =>
    (⟨some id, some name, ""⟩,
     ⟨[Event.toolCall ToolStatus.start (some id) (some name) none], [], []⟩)
  | Chunk.textDelta s => (st, ⟨[Event.text s], [], []⟩)
  | Chunk.inputJsonDelta s =>
    let buf := st.toolInput ++ s
    match env.parse buf with
    | Except.ok v =>
      ({st with toolInput := buf},
       ⟨[Event.toolCall ToolStatus.input_update st.toolUseId st.toolName (some v)], [], []⟩)
    | Except.error _ => ({st with toolInput := buf}, StepOut.nil)
  | Chunk.blockStop => onBlockStop env messages st
  | Chunk.messageStop => (st, StepOut.nil)

/-- The `rag.ts` main loop over the primary stream; `message_stop` breaks
out of the loop. -/
def ragRun {J : Type} (env : Env J) (messages : List (HistMsg J)) (st : OrcState) :
    List Chunk → OrcState × StepOut J
  | [] => (st, StepOut.nil)
  | Chunk.messageStop :: _ => (st, StepOut.nil)
  | c :: cs =>
    let so := ragStep env messages st c
    let rest := ragRun env messages so.1 cs
    (rest.1, StepOut.app so.2 rest.2)

/-- The whole `rag.ts` handler after headers are sent: run the loop over
the primary stream, then write the final empty `text` frame and end the
response. -/
def ragHandler {J : Type} (env : Env J) (messages : List (HistMsg J))
    (chunks : List Chunk) : StepOut J :=
  let r := ragRun env messages OrcState.init chunks
  ⟨r.2.events ++ [Event.text ("")], r.2.calls, r.2.followUps⟩

/-! ## Recursive variant (`handleStreamWithToolCalls`, `src/unnamed/part_002`) -/

/-- The marker text event this variant emits at every tool-use block start. -/
def toolCallStartText : String := "`TOOL CALL START`\n"

/-- Scan one stream as `handleStreamWithToolCalls` does, up to the first
successfully executed `search_interviews` call (the function returns right
after the recursive call).  Returns the accumulated output and, when a call
was executed, the extended message history the recursion continues with.
A parse failure at block stop emits an `error` event and scanning
continues; the tool state is not reset on that path (matching the source,
where the reset lines sit after the early `return`). -/
def hswtcScan {J : Type} (env : Env J) (messages : List (HistMsg J)) (st : OrcState) :
    List Chunk → StepOut J × Option (List (HistMsg J))
  | [] => (StepOut.nil, none)
  | Chunk.blockStartToolUse id name :: cs =>
    let so : StepOut J :=
      ⟨[Event.text toolCallStartText,
        Event.toolCall ToolStatus.start (some id) (some name) none], [], []⟩
    let r := hswtcScan env messages ⟨some id, some name, ""⟩ cs
    (StepOut.app so r.1, r.2)
  | Chunk.textDelta s :: cs =>
    let r := hswtcScan env messages st cs
    (StepOut.app ⟨[Event.text s], [], []⟩ r.1, r.2)
  | Chunk.inputJsonDelta s :: cs =>
    let buf := st.toolInput ++ s
    (match env.parse buf with
     | Except.ok v =>
       let r := hswtcScan env messages {st with toolInput := buf} cs
       (StepOut.app
         ⟨[Event.toolCall ToolStatus.input_update st.toolUseId st.toolName (some v)],
          [], []⟩ r.1, r.2)
     | Except.error _ => hswtcScan env messages {st with toolInput := buf} cs)
  | Chunk.blockStop :: cs =>
    (match st.toolUseId, st.toolName with
     | some id, some name =>
       if name = "search_interviews" then
         match env.parse st.toolInput with
         | Except.ok j =>
           let p := env.toParams j
           let payload := searchInterviews env p
           let fuMsgs := messages ++
             [HistMsg.toolUseMsg id name j, HistMsg.toolResultMsg id payload]
           (⟨[Event.toolCall ToolStatus.executing (some id) (some name) (some j),
              Event.toolResult (some id) (some name) payload (mkSummary payload)],
             [p], [fuMsgs]⟩, some fuMsgs)
         | Except.error e =>
           let r := hswtcScan env messages st cs
           (StepOut.app
             ⟨[Event.errorEv (("Search execution failed: ") ++ e) (some id)], [], []⟩
             r.1, r.2)
       else hswtcScan env messages st cs
     | _, _ => hswtcScan env messages st cs)
  | _ :: cs => hswtcScan env messages st cs

/-- The recursion `handleStreamWithToolCalls`: scan the current stream; when a call was
executed, obtain the model's next stream (the next entry of the `oracle`
list of successive follow-up replies) and recurse on it with the extended
history; when the oracle is exhausted the reply is the empty stream. -/
def handleStreamWithToolCalls {J : Type} (env : Env J) :
    List (List Chunk) → List (HistMsg J) → List Chunk → StepOut J
  | oracle, messages, chunks =>
    match hswtcScan env messages OrcState.init chunks with
    | (o, none) => o
    | (o, some fuMsgs) =>
      match oracle with
      | [] => o
      | next :: rest => StepOut.app o (handleStreamWithToolCalls env rest fuMsgs next)

/-! ## C10: internal consistency of the success payload -/

theorem length_formatResultsAux :
    ∀ (rows : List VectorSearchResult) (i : ℕ),
      (formatResultsAux i rows).length = rows.length := by
  intro rows
  induction rows with
  | nil => intro i; simp [formatResultsAux]
  | cons r rs ih => intro i; simp [formatResultsAux, ih]

theorem rank_formatResultsAux :
    ∀ (rows : List VectorSearchResult) (i k : ℕ)
      (hk : k < (formatResultsAux i rows).length),
      ((formatResultsAux i rows).get ⟨k, hk⟩).rank = i + k + 1 := by
  intro rows
  induction rows with
  | nil => intro i k hk; simp [formatResultsAux] at hk
  | cons r rs ih =>
    intro i k hk
    cases k with
    | zero => simp [formatResultsAux]
    | succ k₁ =>
      simp only [formatResultsAux, List.get_cons_succ, ih]
      omega

/-- C10: for every successful (non-error) execution of `searchInterviews`,
the returned payload is internally consistent: `resultsCount` equals the
length of the `results` array, and the `i`-th result (0-based) carries
`rank = i + 1`. -/
theorem searchInterviews_payload_consistent {J : Type} (env : Env J) (p : SearchParams)
    (rows : List VectorSearchResult) (h : env.backend p = Except.ok rows) :
    payloadResultsCount (searchInterviews env p) =
      some (payloadResults (searchInterviews env p)).length ∧
    ∀ (k : ℕ) (hk : k < (payloadResults (searchInterviews env p)).length),
      ((payloadResults (searchInterviews env p)).get ⟨k, hk⟩).rank = k + 1 := by
  have hp : searchInterviews env p =
      ToolPayload.ok p.query p.searchType (formatResults rows).length (formatResults rows) := by
    simp [searchInterviews, h]
  rw [hp]
  constructor
  · simp [payloadResultsCount, payloadResults]
  · intro k hk
    simp only [payloadResults] at hk ⊢
    have := rank_formatResultsAux rows 0 k (by simpa [formatResults] using hk)
    simpa [formatResults] using this

/-- Default parameters produced by the destructuring when the tool
arguments carry no fields. -/
def pDef : SearchParams := ⟨none, "hybrid", ⟨none, none⟩, 10, 1/2⟩

def rowsC10 : List VectorSearchResult :=
  [⟨"a", 1, 1, 0, "i1", "p1", "t", "pt", "tx"⟩,
   ⟨"b", 2, 0, 2, "i2", "p2", "t", "pt", "tx"⟩]

def envC10 : Env Unit :=
  ⟨fun _ => Except.error ("unused"), fun _ => pDef,
   fun _ => Except.ok rowsC10, fun _ => []⟩

theorem searchInterviews_payload_witness :
    envC10.backend pDef = Except.ok rowsC10 ∧
    payloadResultsCount (searchInterviews envC10 pDef) =
      some (payloadResults (searchInterviews envC10 pDef)).length ∧
    ((payloadResults (searchInterviews envC10 pDef)).get ⟨1, by decide⟩).rank = 2 := by
  refine ⟨rfl, (searchInterviews_payload_consistent envC10 pDef rowsC10 rfl).1, ?_⟩
  exact (searchInterviews_payload_consistent envC10 pDef rowsC10 rfl).2 1 (by decide)

/-! ## C4: backend failures become `{error, details}` payloads -/

/-- C4: when the search backend throws, `searchInterviews` returns the
`{error, details}` payload instead of raising; the orchestrator streams
that payload in a `tool_result` event whose summary has `hasError = true`,
and the identical payload is placed in the tool-result message given back
to the model. -/
theorem search_error_payload_flow {J : Type} (env : Env J) (messages : List (HistMsg J))
    (st : OrcState) (id : String) (j : J) (msg : String)
    (h₁ : st.toolUseId = some id) (h₂ : st.toolName = some ("search_interviews"))
    (h₃ : env.parse st.toolInput = Except.ok j)
    (h₄ : env.backend (env.toParams j) = Except.error msg) :
    searchInterviews env (env.toParams j) =
      ToolPayload.err ("Failed to search interviews") msg ∧
    (mkSummary (ToolPayload.err ("Failed to search interviews") msg)).hasError = true ∧
    onBlockStop env messages st =
      (OrcState.init,
       ⟨[Event.toolCall ToolStatus.executing (some id) (some ("search_interviews")) (some j),
         Event.toolResult (some id) (some ("search_interviews"))
           (ToolPayload.err ("Failed to search interviews") msg)
           (mkSummary (ToolPayload.err ("Failed to search interviews") msg))] ++
         followUpTextEvents (env.followUpModel (messages ++
           [HistMsg.toolUseMsg id ("search_interviews") j,
            HistMsg.toolResultMsg id (ToolPayload.err ("Failed to search interviews") msg)])),
        [env.toParams j],
        [messages ++
          [HistMsg.toolUseMsg id ("search_interviews") j,
           HistMsg.toolResultMsg id (ToolPayload.err ("Failed to search interviews") msg)]]⟩) := by
  have hp : searchInterviews env (env.toParams j) =
      ToolPayload.err ("Failed to search interviews") msg := by
    simp [searchInterviews, h₄]
  refine ⟨hp, rfl, ?_⟩
  simp [onBlockStop, h₁, h₂, h₃, hp]

def envC4 : Env Unit :=
  ⟨fun _ => Except.ok (), fun _ => pDef,
   fun _ => Except.error ("connection reset"), fun _ => []⟩

def stC4 : OrcState := ⟨some ("t4"), some ("search_interviews"), "args"⟩

theorem search_error_payload_flow_witness :
    searchInterviews envC4 (envC4.toParams ()) =
      ToolPayload.err ("Failed to search interviews") ("connection reset") ∧
    (mkSummary (ToolPayload.err ("Failed to search interviews")
      ("connection reset"))).hasError = true ∧
    (onBlockStop envC4 ([] : List (HistMsg Unit)) stC4).2.calls = [pDef] := by
  have h := search_error_payload_flow envC4 [] stC4 ("t4") () ("connection reset")
    rfl rfl rfl rfl
  refine ⟨h.1, h.2.1, ?_⟩
  rw [h.2.2]
  rfl

/-! ## C5: unknown tool names at block stop -/

/-- The `error`-typed events of an event list. -/
def errEvents {J : Type} (evs : List (Event J)) : List (Event J) :=
  evs.filter fun e =>
    match e with
    | Event.errorEv _ _ => true
    | _ => false

/-- C5 (amended): if the model issues a tool-use block whose name is not the
single registered capability `search_interviews`, then at that block's stop
the orchestrator emits no event at all (in particular no `error` event),
does not invoke any search, leaves its state unchanged, and does not crash. -/
theorem unknown_tool_block_stop_ignored {J : Type} (env : Env J)
    (messages : List (HistMsg J)) (st : OrcState) (id name : String)
    (h₁ : st.toolUseId = some id) (h₂ : st.toolName = some name)
    (h₃ : name ≠ "search_interviews") :
    onBlockStop env messages st = (st, StepOut.nil) := by
  simp [onBlockStop, h₁, h₂, h₃]

def env5 : Env Unit :=
  ⟨fun _ => Except.error ("SyntaxError: Unexpected end of JSON input"),
   fun _ => pDef, fun _ => Except.ok [], fun _ => []⟩

def stC5 : OrcState := ⟨some ("t5"), some ("lookup_weather"), ""⟩

theorem unknown_tool_block_stop_witness :
    onBlockStop env5 ([] : List (HistMsg Unit)) stC5 = (stC5, StepOut.nil) :=
  unknown_tool_block_stop_ignored env5 [] stC5 ("t5") ("lookup_weather") rfl rfl
    (by decide)

/-- C5 counterexample: on a turn whose only tool-use block carries the
unregistered name `lookup_weather`, the `rag.ts` handler emits only the
`start` event and the final empty frame: no `error` event referencing the
call id is ever emitted (and no search runs). -/
theorem unknown_tool_no_error_event :
    ragHandler env5 ([] : List (HistMsg Unit))
        [Chunk.blockStartToolUse ("t5") ("lookup_weather"), Chunk.blockStop,
         Chunk.messageStop] =
      ⟨[Event.toolCall ToolStatus.start (some ("t5")) (some ("lookup_weather")) none,
        Event.text ("")], [], []⟩ ∧
    errEvents (ragHandler env5 ([] : List (HistMsg Unit))
        [Chunk.blockStartToolUse ("t5") ("lookup_weather"), Chunk.blockStop,
         Chunk.messageStop]).events = [] := by
  constructor
  · rfl
  · rfl

/-! ## C7: invalid tool-argument JSON at block stop -/

/-- C7: if the accumulated tool-input buffer is invalid JSON at block stop,
the server emits an in-band `error` event keyed (via its `toolId` field) to
that tool call id, resets the tool state and continues; no backend call is
made and nothing is passed back to the model for that call; and every turn
of the handler still ends with the final empty `text` frame. -/
theorem invalid_json_block_stop {J : Type} (env : Env J) (messages : List (HistMsg J))
    (st : OrcState) (id e : String)
    (h₁ : st.toolUseId = some id) (h₂ : st.toolName = some ("search_interviews"))
    (h₃ : env.parse st.toolInput = Except.error e) :
    onBlockStop env messages st =
      (OrcState.init,
       ⟨[Event.errorEv (("Search execution failed: ") ++ e) (some id)], [], []⟩) ∧
    ∀ (chunks : List Chunk) (msgs : List (HistMsg J)),
      (ragHandler env msgs chunks).events.getLast? = some (Event.text ("")) := by
  constructor
  · simp [onBlockStop, h₁, h₂, h₃]
  · intro chunks msgs
    have hev : (ragHandler env msgs chunks).events =
        (ragRun env msgs OrcState.init chunks).2.events ++ [Event.text ("")] := rfl
    rw [hev]
    exact List.getLast?_concat _

def stC7 : OrcState := ⟨some ("t7"), some ("search_interviews"), "notjson"⟩

theorem invalid_json_block_stop_witness :
    onBlockStop env5 ([] : List (HistMsg Unit)) stC7 =
      (OrcState.init,
       ⟨[Event.errorEv (("Search execution failed: ") ++
          ("SyntaxError: Unexpected end of JSON input")) (some ("t7"))], [], []⟩) ∧
    (ragHandler env5 ([] : List (HistMsg Unit)) []).events.getLast? =
      some (Event.text ("")) := by
  have h := invalid_json_block_stop env5 [] stC7 ("t7")
    ("SyntaxError: Unexpected end of JSON input") rfl rfl rfl
  exact ⟨h.1, h.2 [] []⟩

/-! ## C6: incremental parsing of tool-argument deltas -/

/-- Concatenation of all delta fragments, in order. -/
def concatFragments : List String → String
  | [] => ""
  | s :: l => s ++ concatFragments l

/-- A sequence of `input_json_delta` chunks carrying the given fragments. -/
def deltaChunks (l : List String) : List Chunk := l.map Chunk.inputJsonDelta

/-- C6: for every well-formed tool-argument JSON delivered as any sequence
of delta fragments, the buffer at block stop is exactly the concatenation
of all fragments, so the authoritative input parsed at block stop equals
the one-shot parse of the concatenation (chunk boundaries never change the
result); a mid-stream parse failure of the partial buffer is silent (no
event), and each mid-stream parse success emits an `input_update` tool_call
event carrying the partial object. -/
theorem incremental_parse_chunking_invariant {J : Type} (env : Env J)
    (messages : List (HistMsg J)) :
    (∀ (l : List String) (st : OrcState),
      (ragRun env messages st (deltaChunks l)).1.toolInput =
        st.toolInput ++ concatFragments l) ∧
    (∀ (l : List String) (st : OrcState), st.toolInput = "" →
      env.parse ((ragRun env messages st (deltaChunks l)).1.toolInput) =
        env.parse (concatFragments l)) ∧
    (∀ (s : String) (st : OrcState) (e : String),
      env.parse (st.toolInput ++ s) = Except.error e →
      ragStep env messages st (Chunk.inputJsonDelta s) =
        ({st with toolInput := st.toolInput ++ s}, StepOut.nil)) ∧
    (∀ (s : String) (st : OrcState) (v : J),
      env.parse (st.toolInput ++ s) = Except.ok v →
      ragStep env messages st (Chunk.inputJsonDelta s) =
        ({st with toolInput := st.toolInput ++ s},
         ⟨[Event.toolCall ToolStatus.input_update st.toolUseId st.toolName (some v)],
          [], []⟩)) := by
  have hbuf : ∀ (l : List String) (st : OrcState),
      (ragRun env messages st (deltaChunks l)).1.toolInput =
        st.toolInput ++ concatFragments l := by
    intro l
    induction l with
    | nil =>
      intro st
      simp [ragRun, deltaChunks, concatFragments, String.append_empty]
    | cons s rest ih =>
      intro st
      simp only [deltaChunks, List.map_cons, ragRun, ragStep]
      cases hp : env.parse (st.toolInput ++ s) with
      | ok v =>
        have := ih {st with toolInput := st.toolInput ++ s}
        simp only [deltaChunks] at this
        simp [hp, this, concatFragments, String.append_assoc]
      | error e =>
        have := ih {st with toolInput := st.toolInput ++ s}
        simp only [deltaChunks] at this
        simp [hp, this, concatFragments, String.append_assoc]
  refine ⟨hbuf, ?_, ?_, ?_⟩
  · intro l st h
    rw [hbuf l st, h, String.empty_append]
  · intro s st e hp
    simp [ragStep, hp]
  · intro s st v hp
    simp [ragStep, hp]

def envC6 : Env Unit :=
  ⟨fun s => if s = "\x7b\x7d" then Except.ok () else Except.error ("incomplete"),
   fun _ => pDef, fun _ => Except.ok [], fun _ => []⟩

def stC6 : OrcState := ⟨some ("t6"), some ("search_interviews"), "\x7b"⟩

theorem incremental_parse_witness :
    (ragRun envC6 ([] : List (HistMsg Unit)) OrcState.init
        (deltaChunks ["\x7b", "\x7d"])).1.toolInput =
      OrcState.init.toolInput ++ concatFragments ["\x7b", "\x7d"] ∧
    envC6.parse ((ragRun envC6 ([] : List (HistMsg Unit)) OrcState.init
        (deltaChunks ["\x7b", "\x7d"])).1.toolInput) =
      envC6.parse (concatFragments ["\x7b", "\x7d"]) ∧
    ragStep envC6 ([] : List (HistMsg Unit)) OrcState.init (Chunk.inputJsonDelta ("\x7b")) =
      ({OrcState.init with toolInput := OrcState.init.toolInput ++ ("\x7b")},
       StepOut.nil) ∧
    ragStep envC6 ([] : List (HistMsg Unit)) stC6 (Chunk.inputJsonDelta ("\x7d")) =
      ({stC6 with toolInput := stC6.toolInput ++ ("\x7d")},
       ⟨[Event.toolCall ToolStatus.input_update stC6.toolUseId stC6.toolName (some ())],
        [], []⟩) := by
  have h := incremental_parse_chunking_invariant envC6 ([] : List (HistMsg Unit))
  exact ⟨h.1 ["\x7b", "\x7d"] OrcState.init,
    h.2.1 ["\x7b", "\x7d"] OrcState.init rfl,
    h.2.2.1 ("\x7b") OrcState.init ("incomplete") rfl,
    h.2.2.2 ("\x7d") stC6 () rfl⟩

/-! ## C2: per-id event ordering

`EK` classifies the events that reference one tool call id; `kindsFor i`
projects an event list to the classified subsequence for id `i`. -/

inductive EK where
  | startK
  | updateK
  | execK
  | resultK
  | errK
deriving DecidableEq

def ekindFor {J : Type} (i : String) : Event J → Option EK
  | Event.toolCall ToolStatus.start (some id) _ _ =>
    if id = i then some EK.startK else none
  | Event.toolCall ToolStatus.input_update (some id) _ _ =>
    if id = i then some EK.updateK else none
  | Event.toolCall ToolStatus.executing (some id) _ _ =>
    if id = i then some EK.execK else none
  | Event.toolResult (some id) _ _ _ => if id = i then some EK.resultK else none
  | Event.errorEv _ (some id) => if id = i then some EK.errK else none
  | _ => none

def kindsFor {J : Type} (i : String) (evs : List (Event J)) : List EK :=
  evs.filterMap (ekindFor i)

theorem kindsFor_append {J : Type} (i : String) (a b : List (Event J)) :
    kindsFor i (a ++ b) = kindsFor i a ++ kindsFor i b :=
  List.filterMap_append a b _

theorem kindsFor_cons_none {J : Type} {i : String} {e : Event J}
    (h : ekindFor i e = none) (l : List (Event J)) :
    kindsFor i (e :: l) = kindsFor i l := by
  simp [kindsFor, List.filterMap_cons, h]

theorem kindsFor_cons_some {J : Type} {i : String} {e : Event J} {k : EK}
    (h : ekindFor i e = some k) (l : List (Event J)) :
    kindsFor i (e :: l) = k :: kindsFor i l := by
  simp [kindsFor, List.filterMap_cons, h]

theorem kindsFor_followUpTextEvents {J : Type} (i : String) (cs : List Chunk) :
    kindsFor i (followUpTextEvents (J := J) cs) = [] := by
  unfold kindsFor followUpTextEvents
  rw [List.filterMap_filterMap]
  apply List.filterMap_eq_nil_iff.mpr
  intro c hc
  cases c <;> rfl

theorem ekindFor_update_of_ne {J : Type} {i : String} {o : Option String}
    (h : o ≠ some i) (n : Option String) (v : Option J) :
    ekindFor i (Event.toolCall ToolStatus.input_update o n v) = none := by
  cases o with
  | none => rfl
  | some x =>
    have hx : ¬ x = i := fun hx => h (by rw [hx])
    simp [ekindFor, hx]

/-- Ids of the tool-use blocks started by a chunk stream. -/
def startIds : List Chunk → List String
  | [] => []
  | Chunk.blockStartToolUse id _ :: cs => id :: startIds cs
  | _ :: cs => startIds cs

/-- Possible ends of a per-id classified sequence: still open, terminated by
a parse-failure `error`, or `executing` followed by its `tool_result`. -/
def TailOK (t : List EK) : Prop :=
  t = [] ∨ t = [EK.errK] ∨ t = [EK.execK, EK.resultK]

/-- Shape of a per-id sequence after its `start`: some `input_update`s, then
a `TailOK` ending. -/
def MidOK (l : List EK) : Prop :=
  ∃ (u : ℕ) (t : List EK), TailOK t ∧ l = List.replicate u EK.updateK ++ t

/-- Shape of a full per-id sequence: empty (the id never appears), or a
`start` followed by a `MidOK` continuation. -/
def IdTraceOK (l : List EK) : Prop :=
  l = [] ∨ ∃ l₂, MidOK l₂ ∧ l = EK.startK :: l₂

theorem midOK_nil : MidOK [] := ⟨0, [], Or.inl rfl, rfl⟩

theorem midOK_err : MidOK [EK.errK] := ⟨0, [EK.errK], Or.inr (Or.inl rfl), rfl⟩

theorem midOK_exec_result : MidOK [EK.execK, EK.resultK] :=
  ⟨0, [EK.execK, EK.resultK], Or.inr (Or.inr rfl), rfl⟩

theorem midOK_cons_update {l : List EK} (h : MidOK l) : MidOK (EK.updateK :: l) := by
  obtain ⟨u, t, ht, hl⟩ := h
  exact ⟨u + 1, t, ht, by simp [List.replicate_succ, hl]⟩

/-- Per-id shape invariant of the `rag.ts` main loop, by induction over the
remaining chunks: (1) with the id inactive and never started below, no
event references it; (2) with the id active and never re-started below, the
remaining events for it form a `MidOK` sequence; (3) with the id inactive
and started at most once below, the events for it form an `IdTraceOK`
sequence. -/
theorem ragRun_perId {J : Type} (env : Env J) (i : String) :
    ∀ (cs : List Chunk) (messages : List (HistMsg J)) (st : OrcState),
      (st.toolUseId ≠ some i → i ∉ startIds cs →
        kindsFor i (ragRun env messages st cs).2.events = []) ∧
      (st.toolUseId = some i → i ∉ startIds cs →
        MidOK (kindsFor i (ragRun env messages st cs).2.events)) ∧
      (st.toolUseId ≠ some i → (startIds cs).count i ≤ 1 →
        IdTraceOK (kindsFor i (ragRun env messages st cs).2.events)) := by
  intro cs
  induction cs with
  | nil =>
    intro messages st
    refine ⟨fun _ _ => rfl, fun _ _ => midOK_nil, fun _ _ => Or.inl rfl⟩
  | cons c rest ih =>
    intro messages st
    cases c with
    | messageStart =>
      refine ⟨?_, ?_, ?_⟩
      · intro h₁ h₂
        simpa [ragRun, ragStep, StepOut.app, StepOut.nil, kindsFor] using
          (ih messages st).1 h₁ (by simpa [startIds] using h₂)
      · intro h₁ h₂
        simpa [ragRun, ragStep, StepOut.app, StepOut.nil, kindsFor] using
          (ih messages st).2.1 h₁ (by simpa [startIds] using h₂)
      · intro h₁ h₂
        simpa [ragRun, ragStep, StepOut.app, StepOut.nil, kindsFor] using
          (ih messages st).2.2 h₁ (by simpa [startIds] using h₂)
    | blockStartText =>
      refine ⟨?_, ?_, ?_⟩
      · intro h₁ h₂
        simpa [ragRun, ragStep, StepOut.app, StepOut.nil, kindsFor] using
          (ih messages st).1 h₁ (by simpa [startIds] using h₂)
      · intro h₁ h₂
        simpa [ragRun, ragStep, StepOut.app, StepOut.nil, kindsFor] using
          (ih messages st).2.1 h₁ (by simpa [startIds] using h₂)
      · intro h₁ h₂
        simpa [ragRun, ragStep, StepOut.app, StepOut.nil, kindsFor] using
          (ih messages st).2.2 h₁ (by simpa [startIds] using h₂)
    | textDelta s =>
      refine ⟨?_, ?_, ?_⟩
      · intro h₁ h₂
        simpa [ragRun, ragStep, StepOut.app, kindsFor, ekindFor,
          List.filterMap_cons] using
          (ih messages st).1 h₁ (by simpa [startIds] using h₂)
      · intro h₁ h₂
        simpa [ragRun, ragStep, StepOut.app, kindsFor, ekindFor,
          List.filterMap_cons] using
          (ih messages st).2.1 h₁ (by simpa [startIds] using h₂)
      · intro h₁ h₂
        simpa [ragRun, ragStep, StepOut.app, kindsFor, ekindFor,
          List.filterMap_cons] using
          (ih messages st).2.2 h₁ (by simpa [startIds] using h₂)
    | messageStop =>
      refine ⟨?_, ?_, ?_⟩
      · intro h₁ h₂
        simp [ragRun, StepOut.nil, kindsFor]
      · intro h₁ h₂
        simpa [ragRun, StepOut.nil, kindsFor] using midOK_nil
      · intro h₁ h₂
        simp [ragRun, StepOut.nil, kindsFor, IdTraceOK]
    | inputJsonDelta s =>
      have hstarts : startIds (Chunk.inputJsonDelta s :: rest) = startIds rest := rfl
      cases hp : env.parse (st.toolInput ++ s) with
      | ok v =>
        have hstate : ∀ b, OrcState.toolUseId {st with toolInput := b} = st.toolUseId := by
          intro b; rfl
        refine ⟨?_, ?_, ?_⟩
        · intro h₁ h₂
          rw [hstarts] at h₂
          have hev := ekindFor_update_of_ne (J := J) h₁ st.toolName (some v)
          have hrest := (ih messages {st with toolInput := st.toolInput ++ s}).1 h₁ h₂
          simpa [ragRun, ragStep, hp, StepOut.app, kindsFor, List.filterMap_cons, hev]
            using hrest
        · intro h₁ h₂
          rw [hstarts] at h₂
          have hrest := (ih messages {st with toolInput := st.toolInput ++ s}).2.1 h₁ h₂
          have hev : ekindFor i (Event.toolCall ToolStatus.input_update st.toolUseId
              st.toolName (some v)) = some EK.updateK := by
            rw [h₁]; simp [ekindFor]
          have hrun : (ragRun env messages st (Chunk.inputJsonDelta s :: rest)).2.events =
              Event.toolCall ToolStatus.input_update st.toolUseId st.toolName (some v) ::
              (ragRun env messages {st with toolInput := st.toolInput ++ s} rest).2.events := by
            simp [ragRun, ragStep, hp, StepOut.app]
          rw [hrun, kindsFor_cons_some hev]
          exact midOK_cons_update hrest
        · intro h₁ h₂
          rw [hstarts] at h₂
          have hev := ekindFor_update_of_ne (J := J) h₁ st.toolName (some v)
          have hrest := (ih messages {st with toolInput := st.toolInput ++ s}).2.2 h₁ h₂
          simpa [ragRun, ragStep, hp, StepOut.app, kindsFor, List.filterMap_cons, hev]
            using hrest
      | error e =>
        refine ⟨?_, ?_, ?_⟩
        · intro h₁ h₂
          rw [hstarts] at h₂
          have hrest := (ih messages {st with toolInput := st.toolInput ++ s}).1 h₁ h₂
          simpa [ragRun, ragStep, hp, StepOut.app, StepOut.nil, kindsFor] using hrest
        · intro h₁ h₂
          rw [hstarts] at h₂
          have hrest := (ih messages {st with toolInput := st.toolInput ++ s}).2.1 h₁ h₂
          simpa [ragRun, ragStep, hp, StepOut.app, StepOut.nil, kindsFor] using hrest
        · intro h₁ h₂
          rw [hstarts] at h₂
          have hrest := (ih messages {st with toolInput := st.toolInput ++ s}).2.2 h₁ h₂
          simpa [ragRun, ragStep, hp, StepOut.app, StepOut.nil, kindsFor] using hrest
    | blockStartToolUse id name =>
      have hstarts : startIds (Chunk.blockStartToolUse id name :: rest) =
          id :: startIds rest := rfl
      refine ⟨?_, ?_, ?_⟩
      · intro h₁ h₂
        rw [hstarts] at h₂
        have hid : ¬ id = i := fun hh => h₂ (by rw [hh]; exact List.mem_cons_self _ _)
        have h₂' : i ∉ startIds rest := fun hh => h₂ (List.mem_cons_of_mem _ hh)
        have hst' : (OrcState.mk (some id) (some name) "").toolUseId ≠ some i := by
          simp [hid]
        have hrest := (ih messages ⟨some id, some name, ""⟩).1 hst' h₂'
        simpa [ragRun, ragStep, StepOut.app, kindsFor, List.filterMap_cons, ekindFor, hid]
          using hrest
      · intro h₁ h₂
        rw [hstarts] at h₂
        have hid : ¬ id = i := fun hh => h₂ (by rw [hh]; exact List.mem_cons_self _ _)
        have h₂' : i ∉ startIds rest := fun hh => h₂ (List.mem_cons_of_mem _ hh)
        have hst' : (OrcState.mk (some id) (some name) "").toolUseId ≠ some i := by
          simp [hid]
        have hrest := (ih messages ⟨some id, some name, ""⟩).1 hst' h₂'
        simp only [ragRun, ragStep, StepOut.app, kindsFor, List.filterMap_cons] at hrest ⊢
        simpa [ekindFor, hid, kindsFor, hrest] using midOK_nil
      · intro h₁ h₂
        rw [hstarts] at h₂
        by_cases hid : id = i
        · subst hid
          have hcount : (startIds rest).count id = 0 := by
            simp [List.count_cons] at h₂
            omega
          have h₂' : id ∉ startIds rest := by
            rw [← List.count_eq_zero]
            exact hcount
          have hst' : (OrcState.mk (some id) (some name) "").toolUseId = some id := rfl
          have hrest := (ih messages ⟨some id, some name, ""⟩).2.1 hst' h₂'
          refine Or.inr ⟨kindsFor id (ragRun env messages ⟨some id, some name, ""⟩ rest).2.events,
            hrest, ?_⟩
          simp [ragRun, ragStep, StepOut.app, kindsFor, List.filterMap_cons, ekindFor]
        · have hcount : (startIds rest).count i ≤ 1 := by
            simpa [List.count_cons, hid] using h₂
          have hst' : (OrcState.mk (some id) (some name) "").toolUseId ≠ some i := by
            simp [hid]
          have hrest := (ih messages ⟨some id, some name, ""⟩).2.2 hst' hcount
          simpa [ragRun, ragStep, StepOut.app, kindsFor, List.filterMap_cons, ekindFor, hid]
            using hrest
    | blockStop =>
      have hstarts : startIds (Chunk.blockStop :: rest) = startIds rest := rfl
      obtain ⟨tid, tname, tinput⟩ := st
      cases tid with
      | none =>
        have hstop : onBlockStop env messages ⟨none, tname, tinput⟩ =
            (⟨none, tname, tinput⟩, StepOut.nil) := by
          cases tname <;> simp [onBlockStop]
        refine ⟨?_, ?_, ?_⟩
        · intro h₁ h₂
          rw [hstarts] at h₂
          have hrest := (ih messages ⟨none, tname, tinput⟩).1 h₁ h₂
          simpa [ragRun, ragStep, hstop, StepOut.app, StepOut.nil, kindsFor] using hrest
        · intro h₁ h₂
          exact absurd h₁ (by simp)
        · intro h₁ h₂
          rw [hstarts] at h₂
          have hrest := (ih messages ⟨none, tname, tinput⟩).2.2 h₁ h₂
          simpa [ragRun, ragStep, hstop, StepOut.app, StepOut.nil, kindsFor] using hrest
      | some id =>
        cases tname with
        | none =>
          have hstop : onBlockStop env messages ⟨some id, none, tinput⟩ =
              (⟨some id, none, tinput⟩, StepOut.nil) := by
            simp [onBlockStop]
          refine ⟨?_, ?_, ?_⟩
          · intro h₁ h₂
            rw [hstarts] at h₂
            have hrest := (ih messages ⟨some id, none, tinput⟩).1 h₁ h₂
            simpa [ragRun, ragStep, hstop, StepOut.app, StepOut.nil, kindsFor] using hrest
          · intro h₁ h₂
            rw [hstarts] at h₂
            have hrest := (ih messages ⟨some id, none, tinput⟩).2.1 h₁ h₂
            simpa [ragRun, ragStep, hstop, StepOut.app, StepOut.nil, kindsFor] using hrest
          · intro h₁ h₂
            rw [hstarts] at h₂
            have hrest := (ih messages ⟨some id, none, tinput⟩).2.2 h₁ h₂
            simpa [ragRun, ragStep, hstop, StepOut.app, StepOut.nil, kindsFor] using hrest
        | some name =>
          by_cases hsi : name = "search_interviews"
          · subst hsi
            cases hp : env.parse tinput with
            | ok j =>
              have hstop : onBlockStop env messages
                  ⟨some id, some ("search_interviews"), tinput⟩ =
                  (OrcState.init,
                   ⟨[Event.toolCall ToolStatus.executing (some id)
                       (some ("search_interviews")) (some j),
                     Event.toolResult (some id) (some ("search_interviews"))
                       (searchInterviews env (env.toParams j))
                       (mkSummary (searchInterviews env (env.toParams j)))] ++
                     followUpTextEvents (env.followUpModel (messages ++
                       [HistMsg.toolUseMsg id ("search_interviews") j,
                        HistMsg.toolResultMsg id (searchInterviews env (env.toParams j))])),
                    [env.toParams j],
                    [messages ++
                      [HistMsg.toolUseMsg id ("search_interviews") j,
                       HistMsg.toolResultMsg id (searchInterviews env (env.toParams j))]]⟩) := by
                simp [onBlockStop, hp]
              have hinit : OrcState.init.toolUseId ≠ some i := by
                simp [OrcState.init]
              have hrun : (ragRun env messages
                  ⟨some id, some ("search_interviews"), tinput⟩
                  (Chunk.blockStop :: rest)).2.events =
                  Event.toolCall ToolStatus.executing (some id)
                    (some ("search_interviews")) (some j) ::
                  Event.toolResult (some id) (some ("search_interviews"))
                    (searchInterviews env (env.toParams j))
                    (mkSummary (searchInterviews env (env.toParams j))) ::
                  (followUpTextEvents (env.followUpModel (messages ++
                    [HistMsg.toolUseMsg id ("search_interviews") j,
                     HistMsg.toolResultMsg id (searchInterviews env (env.toParams j))])) ++
                   (ragRun env messages OrcState.init rest).2.events) := by
                simp [ragRun, ragStep, hstop, StepOut.app]
              refine ⟨?_, ?_, ?_⟩
              · intro h₁ h₂
                rw [hstarts] at h₂
                have hidne : ¬ id = i := fun hh => h₁ (by simp [hh])
                have hexec : ekindFor i (Event.toolCall ToolStatus.executing (some id)
                    (some ("search_interviews")) (some j)) = none := by
                  simp [ekindFor, hidne]
                have hres : ekindFor (J := J) i (Event.toolResult (some id)
                    (some ("search_interviews")) (searchInterviews env (env.toParams j))
                    (mkSummary (searchInterviews env (env.toParams j)))) = none := by
                  simp [ekindFor, hidne]
                rw [hrun, kindsFor_cons_none hexec, kindsFor_cons_none hres,
                  kindsFor_append, kindsFor_followUpTextEvents, List.nil_append]
                exact (ih messages OrcState.init).1 hinit h₂
              · intro h₁ h₂
                rw [hstarts] at h₂
                have hideq : id = i := by
                  simpa using h₁
                subst hideq
                have hexec : ekindFor id (Event.toolCall ToolStatus.executing (some id)
                    (some ("search_interviews")) (some j)) = some EK.execK := by
                  simp [ekindFor]
                have hres : ekindFor (J := J) id (Event.toolResult (some id)
                    (some ("search_interviews")) (searchInterviews env (env.toParams j))
                    (mkSummary (searchInterviews env (env.toParams j)))) =
                    some EK.resultK := by
                  simp [ekindFor]
                rw [hrun, kindsFor_cons_some hexec, kindsFor_cons_some hres,
                  kindsFor_append, kindsFor_followUpTextEvents, List.nil_append,
                  (ih messages OrcState.init).1 hinit h₂]
                exact midOK_exec_result
              · intro h₁ h₂
                rw [hstarts] at h₂
                have hidne : ¬ id = i := fun hh => h₁ (by simp [hh])
                have hexec : ekindFor i (Event.toolCall ToolStatus.executing (some id)
                    (some ("search_interviews")) (some j)) = none := by
                  simp [ekindFor, hidne]
                have hres : ekindFor (J := J) i (Event.toolResult (some id)
                    (some ("search_interviews")) (searchInterviews env (env.toParams j))
                    (mkSummary (searchInterviews env (env.toParams j)))) = none := by
                  simp [ekindFor, hidne]
                rw [hrun, kindsFor_cons_none hexec, kindsFor_cons_none hres,
                  kindsFor_append, kindsFor_followUpTextEvents, List.nil_append]
                exact (ih messages OrcState.init).2.2 hinit h₂
            | error e =>
              have hstop : onBlockStop env messages
                  ⟨some id, some ("search_interviews"), tinput⟩ =
                  (OrcState.init,
                   ⟨[Event.errorEv (("Search execution failed: ") ++ e) (some id)],
                    [], []⟩) := by
                simp [onBlockStop, hp]
              have hinit : OrcState.init.toolUseId ≠ some i := by
                simp [OrcState.init]
              have hrun : (ragRun env messages
                  ⟨some id, some ("search_interviews"), tinput⟩
                  (Chunk.blockStop :: rest)).2.events =
                  Event.errorEv (("Search execution failed: ") ++ e) (some id) ::
                  (ragRun env messages OrcState.init rest).2.events := by
                simp [ragRun, ragStep, hstop, StepOut.app]
              refine ⟨?_, ?_, ?_⟩
              · intro h₁ h₂
                rw [hstarts] at h₂
                have hidne : ¬ id = i := fun hh => h₁ (by simp [hh])
                have herr : ekindFor (J := J) i (Event.errorEv
                    (("Search execution failed: ") ++ e) (some id)) = none := by
                  simp [ekindFor, hidne]
                rw [hrun, kindsFor_cons_none herr]
                exact (ih messages OrcState.init).1 hinit h₂
              · intro h₁ h₂
                rw [hstarts] at h₂
                have hideq : id = i := by
                  simpa using h₁
                subst hideq
                have herr : ekindFor (J := J) id (Event.errorEv
                    (("Search execution failed: ") ++ e) (some id)) = some EK.errK := by
                  simp [ekindFor]
                rw [hrun, kindsFor_cons_some herr,
                  (ih messages OrcState.init).1 hinit h₂]
                exact midOK_err
              · intro h₁ h₂
                rw [hstarts] at h₂
                have hidne : ¬ id = i := fun hh => h₁ (by simp [hh])
                have herr : ekindFor (J := J) i (Event.errorEv
                    (("Search execution failed: ") ++ e) (some id)) = none := by
                  simp [ekindFor, hidne]
                rw [hrun, kindsFor_cons_none herr]
                exact (ih messages OrcState.init).2.2 hinit h₂
          · have hstop : onBlockStop env messages ⟨some id, some name, tinput⟩ =
                (⟨some id, some name, tinput⟩, StepOut.nil) := by
              simp [onBlockStop, hsi]
            refine ⟨?_, ?_, ?_⟩
            · intro h₁ h₂
              rw [hstarts] at h₂
              have hrest := (ih messages ⟨some id, some name, tinput⟩).1 h₁ h₂
              simpa [ragRun, ragStep, hstop, StepOut.app, StepOut.nil, kindsFor] using hrest
            · intro h₁ h₂
              rw [hstarts] at h₂
              have hrest := (ih messages ⟨some id, some name, tinput⟩).2.1 h₁ h₂
              simpa [ragRun, ragStep, hstop, StepOut.app, StepOut.nil, kindsFor] using hrest
            · intro h₁ h₂
              rw [hstarts] at h₂
              have hrest := (ih messages ⟨some id, some name, tinput⟩).2.2 h₁ h₂
              simpa [ragRun, ragStep, hstop, StepOut.app, StepOut.nil, kindsFor] using hrest

/-- C2 (amended): for every tool call id that is started at most once in
the turn (server-assigned ids are unique per turn), the id's event
subsequence on the `rag.ts` stream is ordered: one `start`, zero or more
`input_update`, then either nothing (the block never completes, or the tool
name is unregistered), or a single terminal `error` (parse failure, no
`executing`), or `executing` followed by exactly one terminal `tool_result`;
at most one terminal event is emitted per id and no event references the id
after its terminal event. -/
theorem per_id_event_grammar {J : Type} (env : Env J) (messages : List (HistMsg J))
    (chunks : List Chunk) (i : String) (h : (startIds chunks).count i ≤ 1) :
    IdTraceOK (kindsFor i (ragHandler env messages chunks).events) := by
  have hev : (ragHandler env messages chunks).events =
      (ragRun env messages OrcState.init chunks).2.events ++ [Event.text ("")] := rfl
  have hlast : kindsFor (J := J) i [Event.text ("")] = [] := rfl
  rw [hev, kindsFor_append, hlast, List.append_nil]
  exact (ragRun_perId env i chunks messages OrcState.init).2.2
    (by simp [OrcState.init]) h

def chunksC2 : List Chunk :=
  [Chunk.messageStart, Chunk.blockStartToolUse ("t2w") ("search_interviews"),
   Chunk.inputJsonDelta ("\x7b\x7d"), Chunk.blockStop, Chunk.messageStop]

theorem per_id_event_grammar_witness :
    IdTraceOK (kindsFor ("t2w")
      (ragHandler envC6 ([] : List (HistMsg Unit)) chunksC2).events) :=
  per_id_event_grammar envC6 [] chunksC2 ("t2w") (by decide)

/-- C2 counterexample: a turn whose only tool-use block carries an
unregistered name receives a `start` event for its id but no terminal event
at all (neither a `tool_result` nor an `error`), refuting the claim that
exactly one terminal event is emitted per started tool call id. -/
theorem start_without_terminal_event :
    kindsFor ("t9") (ragHandler env5 ([] : List (HistMsg Unit))
      [Chunk.blockStartToolUse ("t9") ("fetch_weather"), Chunk.blockStop,
       Chunk.messageStop]).events = [EK.startK] ∧
    (kindsFor ("t9") (ragHandler env5 ([] : List (HistMsg Unit))
      [Chunk.blockStartToolUse ("t9") ("fetch_weather"), Chunk.blockStop,
       Chunk.messageStop]).events).count EK.resultK = 0 ∧
    (kindsFor ("t9") (ragHandler env5 ([] : List (HistMsg Unit))
      [Chunk.blockStartToolUse ("t9") ("fetch_weather"), Chunk.blockStop,
       Chunk.messageStop]).events).count EK.errK = 0 := by
  refine ⟨rfl, rfl, rfl⟩

/-! ## C1: the tool-call loop

The recursive variant (`handleStreamWithToolCalls`) genuinely loops; the
`rag.ts` handler does not (its follow-up loop forwards only text deltas).
`chainHead`/`chainOracle` build a chain of model replies in which every
reply but the last completes exactly one `search_interviews` call. -/

def toolStream (id frag : String) : List Chunk :=
  [Chunk.blockStartToolUse id ("search_interviews"), Chunk.inputJsonDelta frag,
   Chunk.blockStop]

def textOnlyStream (ts : List String) : List Chunk := ts.map Chunk.textDelta

def chainHead : List (String × String) → List String → List Chunk
  | [], ts => textOnlyStream ts
  | c :: _, _ => toolStream c.1 c.2

def chainOracle : List (String × String) → List String → List (List Chunk)
  | [], _ => []
  | _ :: rest, ts => chainHead rest ts :: chainOracle rest ts

/-- Ids of the `tool_result` events of an event list, in order. -/
def resultIds {J : Type} (evs : List (Event J)) : List String :=
  evs.filterMap fun e =>
    match e with
    | Event.toolResult (some id) _ _ _ => some id
    | _ => none

/-- Ids of the `executing` events of an event list, in order. -/
def execIds {J : Type} (evs : List (Event J)) : List String :=
  evs.filterMap fun e =>
    match e with
    | Event.toolCall ToolStatus.executing (some id) _ _ => some id
    | _ => none

theorem hswtcScan_textOnly {J : Type} (env : Env J) (messages : List (HistMsg J))
    (st : OrcState) :
    ∀ (ts : List String),
      hswtcScan env messages st (textOnlyStream ts) =
        (⟨ts.map Event.text, [], []⟩, none) := by
  intro ts
  induction ts with
  | nil => rfl
  | cons t rest ih =>
    simp [textOnlyStream, hswtcScan, StepOut.app] at ih ⊢
    simp [ih]

/-- C1 (amended, the `handleStreamWithToolCalls` variant): for every chain
of model replies in which each reply completes exactly one
`search_interviews` call with parseable input and the last reply is
text-only, the recursion executes each completed call exactly once, in
order, resumes the conversation after each (one follow-up request per
call), and terminates with the text-only reply — for a chain of any
length. -/
theorem recursive_loop_executes_each_call_once {J : Type} (env : Env J) :
    ∀ (calls : List (String × String)) (ts : List String)
      (messages : List (HistMsg J)),
      (∀ p ∈ calls, ∃ j, env.parse p.2 = Except.ok j) →
      resultIds (handleStreamWithToolCalls env (chainOracle calls ts) messages
          (chainHead calls ts)).events = calls.map Prod.fst ∧
      execIds (handleStreamWithToolCalls env (chainOracle calls ts) messages
          (chainHead calls ts)).events = calls.map Prod.fst ∧
      (handleStreamWithToolCalls env (chainOracle calls ts) messages
          (chainHead calls ts)).calls.length = calls.length ∧
      (handleStreamWithToolCalls env (chainOracle calls ts) messages
          (chainHead calls ts)).followUps.length = calls.length := by
  intro calls
  induction calls with
  | nil =>
    intro ts messages _
    have hscan := hswtcScan_textOnly env messages OrcState.init ts
    have hout : handleStreamWithToolCalls env (chainOracle [] ts) messages
        (chainHead [] ts) = ⟨ts.map Event.text, [], []⟩ := by
      simp only [chainHead, chainOracle, handleStreamWithToolCalls, hscan]
    rw [hout]
    refine ⟨?_, ?_, rfl, rfl⟩
    · simp only [resultIds, List.filterMap_map]
      exact List.filterMap_eq_nil_iff.mpr fun t _ => rfl
    · simp only [execIds, List.filterMap_map]
      exact List.filterMap_eq_nil_iff.mpr fun t _ => rfl
  | cons c rest ih =>
    intro ts messages h
    obtain ⟨j, hj⟩ := h c (List.mem_cons_self _ _)
    have hj' : env.parse (("" : String) ++ c.2) = Except.ok j := by
      rw [String.empty_append]; exact hj
    have hscan : hswtcScan env messages OrcState.init (toolStream c.1 c.2) =
        (⟨[Event.text toolCallStartText,
           Event.toolCall ToolStatus.start (some c.1)
             (some ("search_interviews")) none,
           Event.toolCall ToolStatus.input_update (some c.1)
             (some ("search_interviews")) (some j),
           Event.toolCall ToolStatus.executing (some c.1)
             (some ("search_interviews")) (some j),
           Event.toolResult (some c.1) (some ("search_interviews"))
             (searchInterviews env (env.toParams j))
             (mkSummary (searchInterviews env (env.toParams j)))],
          [env.toParams j],
          [messages ++
            [HistMsg.toolUseMsg c.1 ("search_interviews") j,
             HistMsg.toolResultMsg c.1 (searchInterviews env (env.toParams j))]]⟩,
         some (messages ++
           [HistMsg.toolUseMsg c.1 ("search_interviews") j,
            HistMsg.toolResultMsg c.1 (searchInterviews env (env.toParams j))])) := by
      simp [toolStream, hswtcScan, OrcState.init, hj', hj, StepOut.app]
    have hstep : handleStreamWithToolCalls env (chainOracle (c :: rest) ts) messages
        (chainHead (c :: rest) ts) =
        StepOut.app
          ⟨[Event.text toolCallStartText,
            Event.toolCall ToolStatus.start (some c.1)
              (some ("search_interviews")) none,
            Event.toolCall ToolStatus.input_update (some c.1)
              (some ("search_interviews")) (some j),
            Event.toolCall ToolStatus.executing (some c.1)
              (some ("search_interviews")) (some j),
            Event.toolResult (some c.1) (some ("search_interviews"))
              (searchInterviews env (env.toParams j))
              (mkSummary (searchInterviews env (env.toParams j)))],
           [env.toParams j],
           [messages ++
             [HistMsg.toolUseMsg c.1 ("search_interviews") j,
              HistMsg.toolResultMsg c.1 (searchInterviews env (env.toParams j))]]⟩
          (handleStreamWithToolCalls env (chainOracle rest ts)
            (messages ++
              [HistMsg.toolUseMsg c.1 ("search_interviews") j,
               HistMsg.toolResultMsg c.1 (searchInterviews env (env.toParams j))])
            (chainHead rest ts)) := by
      conv_lhs => rw [handleStreamWithToolCalls]
      rw [show chainHead (c :: rest) ts = toolStream c.1 c.2 from rfl, hscan]
      rfl
    have hrec := ih ts
      (messages ++
        [HistMsg.toolUseMsg c.1 ("search_interviews") j,
         HistMsg.toolResultMsg c.1 (searchInterviews env (env.toParams j))])
      (fun p hp => h p (List.mem_cons_of_mem _ hp))
    rw [hstep]
    refine ⟨?_, ?_, ?_, ?_⟩
    · have happ : resultIds (J := J) (StepOut.app
          ⟨[Event.text toolCallStartText,
            Event.toolCall ToolStatus.start (some c.1)
              (some ("search_interviews")) none,
            Event.toolCall ToolStatus.input_update (some c.1)
              (some ("search_interviews")) (some j),
            Event.toolCall ToolStatus.executing (some c.1)
              (some ("search_interviews")) (some j),
            Event.toolResult (some c.1) (some ("search_interviews"))
              (searchInterviews env (env.toParams j))
              (mkSummary (searchInterviews env (env.toParams j)))],
           [env.toParams j],
           [messages ++
             [HistMsg.toolUseMsg c.1 ("search_interviews") j,
              HistMsg.toolResultMsg c.1 (searchInterviews env (env.toParams j))]]⟩
          (handleStreamWithToolCalls env (chainOracle rest ts)
            (messages ++
              [HistMsg.toolUseMsg c.1 ("search_interviews") j,
               HistMsg.toolResultMsg c.1 (searchInterviews env (env.toParams j))])
            (chainHead rest ts))).events =
          c.1 :: resultIds (handleStreamWithToolCalls env (chainOracle rest ts)
            (messages ++
              [HistMsg.toolUseMsg c.1 ("search_interviews") j,
               HistMsg.toolResultMsg c.1 (searchInterviews env (env.toParams j))])
            (chainHead rest ts)).events := by
      -- the five scan events contribute exactly one tool_result id
        simp [resultIds, StepOut.app, List.filterMap_append, List.filterMap_cons]
      rw [happ, hrec.1]
      rfl
    · have happ : execIds (J := J) (StepOut.app
          ⟨[Event.text toolCallStartText,
            Event.toolCall ToolStatus.start (some c.1)
              (some ("search_interviews")) none,
            Event.toolCall ToolStatus.input_update (some c.1)
              (some ("search_interviews")) (some j),
            Event.toolCall ToolStatus.executing (some c.1)
              (some ("search_interviews")) (some j),
            Event.toolResult (some c.1) (some ("search_interviews"))
              (searchInterviews env (env.toParams j))
              (mkSummary (searchInterviews env (env.toParams j)))],
           [env.toParams j],
           [messages ++
             [HistMsg.toolUseMsg c.1 ("search_interviews") j,
              HistMsg.toolResultMsg c.1 (searchInterviews env (env.toParams j))]]⟩
          (handleStreamWithToolCalls env (chainOracle rest ts)
            (messages ++
              [HistMsg.toolUseMsg c.1 ("search_interviews") j,
               HistMsg.toolResultMsg c.1 (searchInterviews env (env.toParams j))])
            (chainHead rest ts))).events =
          c.1 :: execIds (handleStreamWithToolCalls env (chainOracle rest ts)
            (messages ++
              [HistMsg.toolUseMsg c.1 ("search_interviews") j,
               HistMsg.toolResultMsg c.1 (searchInterviews env (env.toParams j))])
            (chainHead rest ts)).events := by
        simp [execIds, StepOut.app, List.filterMap_append, List.filterMap_cons]
      rw [happ, hrec.2.1]
      rfl
    · simp only [StepOut.app, List.length_append, List.length_cons, List.length_nil,
        List.map_cons]
      rw [hrec.2.2.1]
      omega
    · simp only [StepOut.app, List.length_append, List.length_cons, List.length_nil,
        List.map_cons]
      rw [hrec.2.2.2]
      omega

def callsC1 : List (String × String) := [("c1", "\x7b\x7d"), ("c2", "\x7b\x7d")]

theorem recursive_loop_witness :
    resultIds (handleStreamWithToolCalls envC6 (chainOracle callsC1 ["done"])
      ([] : List (HistMsg Unit)) (chainHead callsC1 ["done"])).events =
      ["c1", "c2"] ∧
    (handleStreamWithToolCalls envC6 (chainOracle callsC1 ["done"])
      ([] : List (HistMsg Unit)) (chainHead callsC1 ["done"])).calls.length = 2 := by
  have hp : ∀ p ∈ callsC1, ∃ j, envC6.parse p.2 = Except.ok j := by
    intro p hp
    refine ⟨(), ?_⟩
    rcases List.mem_cons.mp hp with h₁ | h₁
    · subst h₁; rfl
    · rcases List.mem_cons.mp h₁ with h₂ | h₂
      · subst h₂; rfl
      · simp at h₂
  have h := recursive_loop_executes_each_call_once envC6 callsC1 ["done"] [] hp
  exact ⟨h.1, h.2.2.1⟩

/-- The model's follow-up reply used in the C1 counterexample: it requests
a second `search_interviews` call (id `t2`). -/
def fuStreamC1 : List Chunk :=
  [Chunk.blockStartToolUse ("t2") ("search_interviews"),
   Chunk.inputJsonDelta ("\x7b\x7d"), Chunk.blockStop, Chunk.messageStop]

def envC1 : Env Unit :=
  ⟨fun s => if s = "\x7b\x7d" then Except.ok () else Except.error ("incomplete"),
   fun _ => pDef, fun _ => Except.ok [], fun _ => fuStreamC1⟩

def chunksC1 : List Chunk :=
  [Chunk.messageStart, Chunk.blockStartToolUse ("t1") ("search_interviews"),
   Chunk.inputJsonDelta ("\x7b\x7d"), Chunk.blockStop, Chunk.messageStop]

/-- C1 counterexample: in the `rag.ts` handler, the follow-up model reply
requests another tool call (`t2`), yet no event ever references `t2` and
the backend is invoked exactly once (for `t1` only): the follow-up loop
forwards only text deltas, so the exchange is a fixed two-step one, not a
loop. -/
theorem ragts_followup_toolcall_ignored :
    (ragHandler envC1 ([] : List (HistMsg Unit)) chunksC1).followUps.length = 1 ∧
    envC1.followUpModel
      ((ragHandler envC1 ([] : List (HistMsg Unit)) chunksC1).followUps.headI) =
      fuStreamC1 ∧
    startIds fuStreamC1 = ["t2"] ∧
    (ragHandler envC1 ([] : List (HistMsg Unit)) chunksC1).calls.length = 1 ∧
    kindsFor ("t2") (ragHandler envC1 ([] : List (HistMsg Unit)) chunksC1).events =
      [] := by
  refine ⟨rfl, rfl, rfl, rfl, rfl⟩

/-! ## Client conversation state
(`RAGChat.sendMessage` in `src/components/rag-chat.tsx`; the promotion
timer with its duplicate guard is the `src/unnamed/part_000` variant).

The client folds the parsed stream events into `currentToolCalls` (a
string-keyed object), `completedToolCalls` (an array), and the streaming
message buffer.  The 2-second `setTimeout` scheduled on a `tool_result`
event is modelled as a separate `CStep.fire` step that may run at any later
point, with any id (a superset of the real schedules, which only fire ids
captured from received `tool_result` events). -/

structure ToolCallEntry (J : Type) where
  id : String
  name : Option String
  status : ToolStatus
  input : Option J
  result : Option ToolPayload
  summary : Option ToolSummary
  error : Option String
deriving DecidableEq

/-- A stream event as consumed by the client reducer, carrying the fields
each case reads from `event.data`. -/
inductive CEvent (J : Type) where
  | text (s : String)
  | toolCall (id : String) (name : Option String) (status : ToolStatus)
      (input : Option J)
  | toolResult (id : String) (result : Option ToolPayload)
      (summary : Option ToolSummary)
  | errorEv (id : Option String) (message : Option String)
deriving DecidableEq

structure ClientState (J : Type) where
  currentToolCalls : List (String × ToolCallEntry J)
  completedToolCalls : List (ToolCallEntry J)
  streamingMessage : String
deriving DecidableEq

def initClientState {J : Type} : ClientState J := ⟨[], [], ""⟩

/-- The entry the JS spread `{...prev[id], ...}` starts from when no entry
exists: in JS all fields would be `undefined`; we carry the map key as
`id`. -/
def blankEntry {J : Type} (id : String) : ToolCallEntry J :=
  ⟨id, none, ToolStatus.start, none, none, none, none⟩

/-- The client reducer (the `switch (event.type)` of `sendMessage`):
`text` appends to the streaming buffer; `tool_call` upserts the entry by id
with `input: toolCallData.input || prev[id]?.input` and preserved
`result`/`summary`/`error`; `tool_result` marks the entry completed and
attaches `result`/`summary`; `error` marks the entry when the event data
carries a truthy `id`, otherwise appends a bracketed annotation to the
streaming buffer. -/
def applyCEvent {J : Type} (st : ClientState J) : CEvent J → ClientState J
  | CEvent.text s => {st with streamingMessage := st.streamingMessage ++ s}
  | CEvent.toolCall id name status input =>
    let prev := objGet st.currentToolCalls id
    let entry : ToolCallEntry J :=
      ⟨id, name, status, jsOr input (prev.bind ToolCallEntry.input),
       prev.bind ToolCallEntry.result, prev.bind ToolCallEntry.summary,
       prev.bind ToolCallEntry.error⟩
    {st with currentToolCalls := objSet st.currentToolCalls id entry}
  | CEvent.toolResult id result summary =>
    let prev := (objGet st.currentToolCalls id).getD (blankEntry id)
    let entry := {prev with status := ToolStatus.completed, result := result,
                            summary := summary}
    {st with currentToolCalls := objSet st.currentToolCalls id entry}
  | CEvent.errorEv idOpt message =>
    match idOpt with
    | some i₂ =>
      if i₂.isEmpty then
        {st with streamingMessage := st.streamingMessage ++ ("\n\n[Error: ") ++
          (message.getD ("undefined")) ++ ("]")}
      else
        let prev := (objGet st.currentToolCalls i₂).getD (blankEntry i₂)
        let entry := {prev with status := ToolStatus.error, error := message}
        {st with currentToolCalls := objSet st.currentToolCalls i₂ entry}
    | none =>
      {st with streamingMessage := st.streamingMessage ++ ("\n\n[Error: ") ++
        (message.getD ("undefined")) ++ ("]")}

/-- The `setTimeout` body scheduled by the `tool_result` case (the
`part_000` variant): destructure the entry out of the active map; when it
was still there, append it to `completedToolCalls` unless an entry with the
same id is already present. -/
def firePromotion {J : Type} (st : ClientState J) (i : String) : ClientState J :=
  let completed := objGet st.currentToolCalls i
  let remaining := st.currentToolCalls.filter fun p => p.1 != i
  match completed with
  | none => {st with currentToolCalls := remaining}
  | some e =>
    {st with currentToolCalls := remaining,
             completedToolCalls :=
               if st.completedToolCalls.any fun tc => tc.id == e.id then
                 st.completedToolCalls
               else st.completedToolCalls ++ [e]}

inductive CStep (J : Type) where
  | ev (e : CEvent J)
  | fire (i : String)

def clientStep {J : Type} (st : ClientState J) : CStep J → ClientState J
  | CStep.ev e => applyCEvent st e
  | CStep.fire i => firePromotion st i

def clientRun {J : Type} (st : ClientState J) : List (CStep J) → ClientState J
  | [] => st
  | s :: rest => clientRun (clientStep st s) rest

theorem applyCEvent_completed {J : Type} (st : ClientState J) (e : CEvent J) :
    (applyCEvent st e).completedToolCalls = st.completedToolCalls := by
  cases e with
  | text s => rfl
  | toolCall id name status input => rfl
  | toolResult id result summary => rfl
  | errorEv idOpt message =>
    cases idOpt with
    | none => rfl
    | some i₂ =>
      simp only [applyCEvent]
      split
      · rfl
      · rfl

theorem objGet_filter_ne {J : Type} (i : String) :
    ∀ (m : List (String × ToolCallEntry J)),
      objGet (m.filter fun p => p.1 != i) i = none := by
  intro m
  induction m with
  | nil => rfl
  | cons q rest ih =>
    obtain ⟨k₁, v₁⟩ := q
    by_cases h : k₁ = i
    · simpa [List.filter_cons, h] using ih
    · simp only [List.filter_cons]
      have hb : (k₁ != i) = true := by simp [h]
      simp [hb, objGet, h, ih]

theorem any_beq_false_not_mem {J : Type} {l : List (ToolCallEntry J)}
    {x : String} (h : (l.any fun tc => tc.id == x) = false) :
    x ∉ l.map ToolCallEntry.id := by
  intro hmem
  rcases List.mem_map.mp hmem with ⟨tc, htc, hid⟩
  have : (l.any fun tc => tc.id == x) = true :=
    List.any_eq_true.mpr ⟨tc, htc, by simp [hid]⟩
  rw [h] at this
  exact Bool.false_ne_true this

theorem firePromotion_nodup {J : Type} (st : ClientState J) (i : String)
    (h : (st.completedToolCalls.map ToolCallEntry.id).Nodup) :
    ((firePromotion st i).completedToolCalls.map ToolCallEntry.id).Nodup := by
  unfold firePromotion
  cases hg : objGet st.currentToolCalls i with
  | none => simpa using h
  | some e =>
    simp only
    by_cases hany : (st.completedToolCalls.any fun tc => tc.id == e.id) = true
    · simpa [hany] using h
    · have hfalse : (st.completedToolCalls.any fun tc => tc.id == e.id) = false :=
        Bool.eq_false_iff.mpr hany
      have hnotin := any_beq_false_not_mem hfalse
      simp only [hfalse, Bool.false_eq_true, if_false, List.map_append, List.map_cons,
        List.map_nil]
      rw [List.nodup_append]
      refine ⟨h, List.nodup_singleton _, ?_⟩
      intro a ha hb
      simp only [List.mem_singleton] at hb
      subst hb
      exact hnotin ha

theorem clientRun_nodup {J : Type} :
    ∀ (steps : List (CStep J)) (st : ClientState J),
      (st.completedToolCalls.map ToolCallEntry.id).Nodup →
      ((clientRun st steps).completedToolCalls.map ToolCallEntry.id).Nodup := by
  intro steps
  induction steps with
  | nil => intro st h; simpa [clientRun] using h
  | cons s rest ih =>
    intro st h
    simp only [clientRun]
    apply ih
    cases s with
    | ev e => rw [clientStep, applyCEvent_completed]; exact h
    | fire i => exact firePromotion_nodup st i h

/-- C8: for every `tool_call` event folded by the client reducer, the entry
for that id is upserted with the event's status (and name); the entry's
input is replaced only when the event carries an input (`input || prev`
semantics, so an absent input never overwrites a present one), the entry's
existing `result`, `summary` and `error` fields are preserved, and nothing
else in the state changes. -/
theorem tool_call_upsert_merge {J : Type} (st : ClientState J) (id : String)
    (name : Option String) (status : ToolStatus) (input : Option J) :
    objGet (applyCEvent st (CEvent.toolCall id name status input)).currentToolCalls id =
      some ⟨id, name, status,
        jsOr input ((objGet st.currentToolCalls id).bind ToolCallEntry.input),
        (objGet st.currentToolCalls id).bind ToolCallEntry.result,
        (objGet st.currentToolCalls id).bind ToolCallEntry.summary,
        (objGet st.currentToolCalls id).bind ToolCallEntry.error⟩ ∧
    (∀ k, k ≠ id →
      objGet (applyCEvent st (CEvent.toolCall id name status input)).currentToolCalls k =
        objGet st.currentToolCalls k) ∧
    (applyCEvent st (CEvent.toolCall id name status input)).completedToolCalls =
      st.completedToolCalls ∧
    (applyCEvent st (CEvent.toolCall id name status input)).streamingMessage =
      st.streamingMessage := by
  refine ⟨?_, ?_, rfl, rfl⟩
  · simp only [applyCEvent]
    exact objGet_objSet_self _ _ _
  · intro k hk
    simp only [applyCEvent]
    exact objGet_objSet_ne _ _ _ _ hk

def entry8 : ToolCallEntry Unit :=
  ⟨"c8", some ("search_interviews"), ToolStatus.start, some (),
   some (ToolPayload.err ("e") ("d")), none, none⟩

def st8 : ClientState Unit := ⟨[(("c8"), entry8)], [], ""⟩

theorem tool_call_upsert_merge_witness :
    objGet (applyCEvent st8 (CEvent.toolCall ("c8") (some ("search_interviews"))
        ToolStatus.executing none)).currentToolCalls ("c8") =
      some ⟨"c8", some ("search_interviews"), ToolStatus.executing, some (),
        some (ToolPayload.err ("e") ("d")), none, none⟩ ∧
    objGet (applyCEvent st8 (CEvent.toolCall ("c8") (some ("search_interviews"))
        ToolStatus.executing none)).currentToolCalls ("zz") =
      objGet st8.currentToolCalls ("zz") := by
  have h := tool_call_upsert_merge st8 ("c8") (some ("search_interviews"))
    ToolStatus.executing none
  exact ⟨h.1, h.2.1 ("zz") (by decide)⟩

/-- The entry written by the `tool_result` reducer case: the previous
fields with `status: 'completed'` and the event's `result`/`summary`. -/
def updatedCompleted {J : Type} (prev : ToolCallEntry J)
    (result : Option ToolPayload) (summary : Option ToolSummary) : ToolCallEntry J :=
  {prev with status := ToolStatus.completed, result := result, summary := summary}

/-- C9: every `tool_result` event marks the entry for its id `completed`
and attaches `result` and `summary`; the deferred promotion step removes
the entry from the active map and appends it to the completed list exactly
when no entry with the same id is already there; and over every run of
events and promotion firings (fired at any time, for any id) the completed
list never contains two entries with the same id. -/
theorem tool_result_completion_and_nodup {J : Type} :
    (∀ (st : ClientState J) (id : String) (result : Option ToolPayload)
        (summary : Option ToolSummary),
      objGet (applyCEvent st
          (CEvent.toolResult id result summary)).currentToolCalls id =
        some (updatedCompleted ((objGet st.currentToolCalls id).getD (blankEntry id)) result summary)) ∧
    (∀ (st : ClientState J) (i : String) (e : ToolCallEntry J),
      objGet st.currentToolCalls i = some e →
      objGet (firePromotion st i).currentToolCalls i = none ∧
      ((st.completedToolCalls.any fun tc => tc.id == e.id) = false →
        (firePromotion st i).completedToolCalls =
          st.completedToolCalls ++ [e])) ∧
    (∀ (steps : List (CStep J)),
      ((clientRun initClientState steps).completedToolCalls.map
        ToolCallEntry.id).Nodup) := by
  refine ⟨?_, ?_, ?_⟩
  · intro st id result summary
    simp only [applyCEvent]
    exact objGet_objSet_self _ _ _
  · intro st i e hg
    constructor
    · unfold firePromotion
      rw [hg]
      exact objGet_filter_ne i _
    · intro hfalse
      unfold firePromotion
      rw [hg]
      simp [hfalse]
  · intro steps
    apply clientRun_nodup
    simp [initClientState]

theorem tool_result_completion_witness :
    objGet (applyCEvent st8 (CEvent.toolResult ("c8") none none)).currentToolCalls
        ("c8") =
      some ({entry8 with status := ToolStatus.completed, result := none, summary := none}) ∧
    objGet (firePromotion st8 ("c8")).currentToolCalls ("c8") = none ∧
    (firePromotion st8 ("c8")).completedToolCalls = [entry8] := by
  have h := tool_result_completion_and_nodup (J := Unit)
  refine ⟨h.1 st8 ("c8") none none, (h.2.1 st8 ("c8") entry8 rfl).1, ?_⟩
  have h₂ := (h.2.1 st8 ("c8") entry8 rfl).2 rfl
  simpa using h₂

end IvAgent
